import Mathlib

/-!
Verification of the iabgpp-rs bitstream decoding engine.

This file gives a shallow embedding of the decoder sources
(`src/iab_gpp/src/core/base64.rs`, `src/iab_gpp/src/sections/tcfeuv2.rs`,
`src/iab_gpp/src/sections/tcfcav1.rs`) and proves properties of the
embedded definitions.  Machine integers are modelled as `Nat` with
explicit reductions `% 2 ^ w` where the Rust code can truncate; the
Rust bit operations `x << s`, `x >> s`, `x & ((1 << t) - 1)` on
non-negative values are rendered as `x * 2 ^ s`, `x / 2 ^ s` and
`x % 2 ^ t`, and an `a | b` whose right operand is known to occupy
only the zero low bits of `a` is rendered as `a + b`.  Fallible Rust
code returning `io::Result` becomes a pair of an `Except` result and
the state after the call, since the Rust methods mutate their receiver
even on the error path.
-/

/-- The error kinds of `std::io::Error` that the decoder creates or
inspects: `InvalidData` wrapping `DecodeError::InvalidByte(offset, byte)`,
`UnexpectedEof` (from `read_decoded_byte`), and `InvalidInput`
(excessive bits for a typed read). -/
inductive IoErr where
  | invalidData (offset : Nat) (byte : Nat)
  | unexpectedEof
  | invalidInput
  deriving DecidableEq, Repr

/-- The decode table built by `make_base64_decode_table` in
`core/base64.rs`: the `const` loops set entries for the 26 uppercase
letters, 26 lowercase letters, 10 digits, and the bytes of the two
symbols of the URL-safe alphabet; every other entry keeps the
`INVALID_B64_VALUE` sentinel `-1`. -/
def base64_decode_table (b : Nat) : Int :=
  if 65 ≤ b ∧ b < 65 + 26 then (b : Int) - 65
  else if 97 ≤ b ∧ b < 97 + 26 then (b : Int) - 97 + 26
  else if 48 ≤ b ∧ b < 48 + 10 then (b : Int) - 48 + 52
  else if b = 45 then 62
  else if b = 95 then 63
  else -1

/-- `base64_value` of `core/base64.rs`: table lookup, negative sentinel
means the byte is not in the alphabet. -/
def base64_value (b : Nat) : Option Nat :=
  let v := base64_decode_table b
  if v ≥ 0 then some v.toNat else none

/-- The state of `Base64SliceReader`: borrowed input, cursor, 32-bit
accumulator and count of valid accumulator bits. -/
structure Base64SliceReader where
  input : List Nat
  inputPos : Nat
  acc : Nat
  bits : Nat
  deriving DecidableEq, Repr

/-- A fresh `Base64SliceReader::new(input)`. -/
def Base64SliceReader.new (input : List Nat) : Base64SliceReader :=
  ⟨input, 0, 0, 0⟩

/-- The inner refill loop of `Base64SliceReader::read`:
`while self.bits < 8 && self.input_pos < self.input.len()` consume one
input byte, map it through the table (an invalid byte aborts with its
offset, the cursor already advanced), shift the accumulator left by 6
and or the 6-bit value in, add 6 to the bit count.  Returns the
offending `(offset, byte)` on failure. -/
def Base64SliceReader.fill (s : Base64SliceReader) :
    Option (Nat × Nat) × Base64SliceReader :=
  if h : s.bits < 8 ∧ s.inputPos < s.input.length then
    let byte := s.input.getD s.inputPos 0
    match base64_value byte with
    | none => (some (s.inputPos, byte), { s with inputPos := s.inputPos + 1 })
    | some v =>
        Base64SliceReader.fill
          { s with
            inputPos := s.inputPos + 1,
            acc := s.acc * 64 % 2 ^ 32 + v,
            bits := s.bits + 6 }
  else (none, s)
  termination_by s.input.length - s.inputPos
  decreasing_by
    omega

/-- `Base64SliceReader::read` on a buffer of length `n`.  Each
iteration of the outer `while written < buf.len()` loop refills the
accumulator, then either extracts the top 8 valid bits as one output
byte and continues, or — when the input is exhausted with a non-empty
accumulator — flushes the remaining bits left-justified as one final
byte and stops, or stops.  An invalid input byte aborts the whole call
with an `InvalidData` error (the bytes already written are not
reported, matching the Rust `?` return). -/
def Base64SliceReader.read (s : Base64SliceReader) (n : Nat) :
    Except IoErr (List Nat) × Base64SliceReader :=
  match n with
  | 0 => (.ok [], s)
  | m + 1 =>
    match Base64SliceReader.fill s with
    | (some ob, s1) => (.error (.invalidData ob.1 ob.2), s1)
    | (none, s1) =>
      if s1.bits ≥ 8 then
        let bits1 := s1.bits - 8
        let b := s1.acc / 2 ^ bits1 % 2 ^ 8
        match Base64SliceReader.read { s1 with bits := bits1, acc := s1.acc % 2 ^ bits1 } m with
        | (.ok rest, s2) => (.ok (b :: rest), s2)
        | (.error e, s2) => (.error e, s2)
      else if s1.inputPos = s1.input.length ∧ s1.bits > 0 then
        (.ok [s1.acc * 2 ^ (8 - s1.bits) % 2 ^ 8], { s1 with acc := 0, bits := 0 })
      else
        (.ok [], s1)

/-- The state of `Base64BitReader`: the wrapped slice reader, one
pending decoded byte and the count of its unread bits. -/
structure Base64BitReader where
  reader : Base64SliceReader
  value : Nat
  bits : Nat
  deriving DecidableEq, Repr

/-- A fresh `Base64BitReader::new(input)`. -/
def Base64BitReader.new (input : List Nat) : Base64BitReader :=
  ⟨Base64SliceReader.new input, 0, 0⟩

/-- `Base64BitReader::read_decoded_byte`: pull one byte from the slice
reader; zero bytes read means `UnexpectedEof`. -/
def Base64BitReader.read_decoded_byte (r : Base64BitReader) :
    Except IoErr Nat × Base64BitReader :=
  match Base64SliceReader.read r.reader 1 with
  | (.ok [b], sr) => (.ok b, { r with reader := sr })
  | (.ok _, sr) => (.error .unexpectedEof, { r with reader := sr })
  | (.error e, sr) => (.error e, { r with reader := sr })

/-- `Base64BitReader::trim_queue`: zero the pending byte when no bits
remain, otherwise mask it down to its low `bits` bits. -/
def Base64BitReader.trim_queue (value bits : Nat) : Nat :=
  if bits = 0 then 0 else value % 2 ^ bits

/-- `Base64BitReader::read_bit`: refill the pending byte when empty,
then consume and return its most significant remaining bit. -/
def Base64BitReader.read_bit (r : Base64BitReader) :
    Except IoErr Bool × Base64BitReader :=
  if r.bits = 0 then
    match Base64BitReader.read_decoded_byte r with
    | (.error e, r1) => (.error e, r1)
    | (.ok b, r1) =>
        (.ok (b / 2 ^ 7 % 2 = 1),
         { r1 with value := Base64BitReader.trim_queue b 7, bits := 7 })
  else
    (.ok (r.value / 2 ^ (r.bits - 1) % 2 = 1),
     { r with value := Base64BitReader.trim_queue r.value (r.bits - 1), bits := r.bits - 1 })

/-- The `while remaining > 0` loop of
`Base64BitReader::read_unsigned_counted`, with the refill of the
pending byte inlined into the iteration that needs it.  `tb` is the
bit size of the target unsigned type, `vacc` the value accumulated so
far, `rem` the bits still to read.  Each iteration takes
`take = min rem bits` bits from the top of the pending byte
(`chunk = (value >> (bits - take)) & ((1 << take) - 1)`), appends them
to the accumulator (`vacc << take | chunk`, truncated at the type
size), and trims the pending byte. -/
def Base64BitReader.read_unsigned_loop (tb : Nat) (r : Base64BitReader)
    (vacc rem : Nat) : Except IoErr Nat × Base64BitReader :=
  match rem with
  | 0 => (.ok vacc, r)
  | rem1 + 1 =>
    if h0 : r.bits = 0 then
      match Base64BitReader.read_decoded_byte r with
      | (.error e, r1) => (.error e, r1)
      | (.ok b, r1) =>
        let take := min (rem1 + 1) 8
        let chunk := b / 2 ^ (8 - take) % 2 ^ take
        Base64BitReader.read_unsigned_loop tb
          { r1 with value := Base64BitReader.trim_queue b (8 - take), bits := 8 - take }
          (vacc * 2 ^ take % 2 ^ tb + chunk) (rem1 + 1 - take)
    else
      let take := min (rem1 + 1) r.bits
      let chunk := r.value / 2 ^ (r.bits - take) % 2 ^ take
      Base64BitReader.read_unsigned_loop tb
        { r with value := Base64BitReader.trim_queue r.value (r.bits - take),
                 bits := r.bits - take }
        (vacc * 2 ^ take % 2 ^ tb + chunk) (rem1 + 1 - take)
  termination_by rem
  decreasing_by
    all_goals omega

/-- `Base64BitReader::read_unsigned_counted::<MAX, U>(bits)`: reject a
count exceeding the bit size `tb` of the target type, else run the
accumulation loop from zero. -/
def Base64BitReader.read_unsigned (r : Base64BitReader) (tb c : Nat) :
    Except IoErr Nat × Base64BitReader :=
  if c > tb then (.error .invalidInput, r)
  else Base64BitReader.read_unsigned_loop tb r 0 c

/-- The two trailing loops of `Base64BitReader::skip`: discard whole
decoded bytes while at least 8 bits remain to skip, then realign on a
final partial byte by pulling one more decoded byte and keeping its
low `8 - bits` bits pending. -/
def Base64BitReader.skip_loop (r : Base64BitReader) (n : Nat) :
    Except IoErr Unit × Base64BitReader :=
  if h : n ≥ 8 then
    match Base64BitReader.read_decoded_byte r with
    | (.error e, r1) => (.error e, r1)
    | (.ok _, r1) => Base64BitReader.skip_loop r1 (n - 8)
  else if n > 0 then
    match Base64BitReader.read_decoded_byte r with
    | (.error e, r1) => (.error e, r1)
    | (.ok b, r1) =>
        (.ok (),
         { r1 with value := Base64BitReader.trim_queue b (8 - n), bits := 8 - n })
  else (.ok (), r)
  termination_by n
  decreasing_by
    omega

/-- `Base64BitReader::skip(bits)`: nothing to do for 0; otherwise first
consume up to `min bits self.bits` pending bits, then discard whole
bytes and realign via `skip_loop`. -/
def Base64BitReader.skip (r : Base64BitReader) (n : Nat) :
    Except IoErr Unit × Base64BitReader :=
  if n = 0 then (.ok (), r)
  else if r.bits > 0 then
    let take := min n r.bits
    Base64BitReader.skip_loop
      { r with value := Base64BitReader.trim_queue r.value (r.bits - take),
               bits := r.bits - take }
      (n - take)
  else Base64BitReader.skip_loop r n

/-- Sequence of `n` `read_bit` calls, collecting the bits in order.
This is the auxiliary notion used to state bitfield properties: it is
nothing but the iterated `read_bit`. -/
def Base64BitReader.read_bits (r : Base64BitReader) (n : Nat) :
    Except IoErr (List Bool) × Base64BitReader :=
  match n with
  | 0 => (.ok [], r)
  | m + 1 =>
    match Base64BitReader.read_bit r with
    | (.error e, r1) => (.error e, r1)
    | (.ok b, r1) =>
      match Base64BitReader.read_bits r1 m with
      | (.ok l, r2) => (.ok (b :: l), r2)
      | (.error e, r2) => (.error e, r2)

/-- The error type `SectionDecodeError` of `crate::sections`, restricted
to the variants the decoders in scope construct: `Read { source }` and
`UnknownSegmentVersion { segment_version }`. -/
inductive SectionDecodeError where
  | read (source : IoErr)
  | unknownSegmentVersion (segmentVersion : Nat)
  deriving DecidableEq, Repr

/-- `RestrictionType` of `sections/tcfeuv2.rs`. -/
inductive TcfEuV2.RestrictionType where
  | notAllowed
  | requireConsent
  | requireLegitimateInterest
  | undefined
  deriving DecidableEq, Repr

/-- `RestrictionType::from_u8(..).unwrap_or(RestrictionType::Undefined)`
for the TCF EU v2 enum: discriminants 0..3, every other value maps to
the catch-all `Undefined`. -/
def TcfEuV2.restriction_type_of (n : Nat) : TcfEuV2.RestrictionType :=
  match n with
  | 0 => .notAllowed
  | 1 => .requireConsent
  | 2 => .requireLegitimateInterest
  | _ => .undefined

/-- `PublisherRestriction` of `sections/tcfeuv2.rs`; the `IdSet` of
restricted vendor ids is modelled as a `Finset Nat`. -/
structure TcfEuV2.PublisherRestriction where
  purposeId : Nat
  restrictionType : TcfEuV2.RestrictionType
  restrictedVendorIds : Finset Nat
  deriving DecidableEq

/-- `for id in start..=end { ids.insert(id) }`: insert every integer of
the inclusive interval into the set. -/
def insert_id_range (ids : Finset Nat) (start stop : Nat) : Finset Nat :=
  (List.range' start (stop + 1 - start)).foldl (fun s i => insert i s) ids

/-- The `for _entry_idx in 0..n` loop of
`read_publisher_restriction_integer_range_compat`
(`sections/tcfeuv2.rs`): per entry one `is_group` bit, then a 16-bit id
(or 16-bit start and end, inserting the whole interval).  An
`UnexpectedEof` on the flag returns `Ok(None)`; an `UnexpectedEof` on a
16-bit bound returns `Ok(None)` when `restriction_idx > 0` and is a
hard `Read` error for the very first restriction; every other error is
always hard. -/
def TcfEuV2.compat_loop (restrictionIdx : Nat) (r : Base64BitReader)
    (k : Nat) (ids : Finset Nat) :
    Except SectionDecodeError (Option (Finset Nat)) × Base64BitReader :=
  match k with
  | 0 => (.ok (some ids), r)
  | k1 + 1 =>
    match Base64BitReader.read_bit r with
    | (.error .unexpectedEof, r1) => (.ok none, r1)
    | (.error e, r1) => (.error (.read e), r1)
    | (.ok isGroup, r1) =>
      match Base64BitReader.read_unsigned r1 16 16 with
      | (.error .unexpectedEof, r2) =>
          if restrictionIdx > 0 then (.ok none, r2)
          else (.error (.read .unexpectedEof), r2)
      | (.error e, r2) => (.error (.read e), r2)
      | (.ok start, r2) =>
        if isGroup then
          match Base64BitReader.read_unsigned r2 16 16 with
          | (.error .unexpectedEof, r3) =>
              if restrictionIdx > 0 then (.ok none, r3)
              else (.error (.read .unexpectedEof), r3)
          | (.error e, r3) => (.error (.read e), r3)
          | (.ok stop, r3) =>
              TcfEuV2.compat_loop restrictionIdx r3 k1 (insert_id_range ids start stop)
        else
          TcfEuV2.compat_loop restrictionIdx r2 k1 (insert start ids)

/-- `read_publisher_restriction_integer_range_compat` of
`sections/tcfeuv2.rs`: a 12-bit entry count (an `UnexpectedEof` there
yields `Ok(None)`, other errors are hard), then the entry loop. -/
def TcfEuV2.read_publisher_restriction_integer_range_compat
    (r : Base64BitReader) (restrictionIdx : Nat) :
    Except SectionDecodeError (Option (Finset Nat)) × Base64BitReader :=
  match Base64BitReader.read_unsigned r 16 12 with
  | (.error .unexpectedEof, r1) => (.ok none, r1)
  | (.error e, r1) => (.error (.read e), r1)
  | (.ok n, r1) => TcfEuV2.compat_loop restrictionIdx r1 n ∅

/-- The `for _ in 0..num_restrictions` loop of
`parse_publisher_restrictions` (`sections/tcfeuv2.rs`): per entry a
6-bit purpose id and a 2-bit restriction type (an `UnexpectedEof` on
either stops the loop, returning the restrictions decoded so far),
then the compat range read (whose `Ok(None)` also stops the loop);
`restrictions.len()` is the length of the accumulator. -/
def TcfEuV2.restrictions_loop (r : Base64BitReader) (k : Nat)
    (acc : List TcfEuV2.PublisherRestriction) :
    Except SectionDecodeError (List TcfEuV2.PublisherRestriction) × Base64BitReader :=
  match k with
  | 0 => (.ok acc, r)
  | k1 + 1 =>
    match Base64BitReader.read_unsigned r 8 6 with
    | (.error .unexpectedEof, r1) => (.ok acc, r1)
    | (.error e, r1) => (.error (.read e), r1)
    | (.ok purposeId, r1) =>
      match Base64BitReader.read_unsigned r1 8 2 with
      | (.error .unexpectedEof, r2) => (.ok acc, r2)
      | (.error e, r2) => (.error (.read e), r2)
      | (.ok restrictionType, r2) =>
        match TcfEuV2.read_publisher_restriction_integer_range_compat r2 acc.length with
        | (.error e, r3) => (.error e, r3)
        | (.ok none, r3) => (.ok acc, r3)
        | (.ok (some ids), r3) =>
            TcfEuV2.restrictions_loop r3 k1
              (acc ++ [⟨purposeId, TcfEuV2.restriction_type_of restrictionType, ids⟩])

/-- `parse_publisher_restrictions` of `sections/tcfeuv2.rs`: a 12-bit
restriction count (any failure there is a hard `Read` error), then the
entry loop starting from the empty vector. -/
def TcfEuV2.parse_publisher_restrictions (r : Base64BitReader) :
    Except SectionDecodeError (List TcfEuV2.PublisherRestriction) × Base64BitReader :=
  match Base64BitReader.read_unsigned r 16 12 with
  | (.error e, r1) => (.error (.read e), r1)
  | (.ok numRestrictions, r1) => TcfEuV2.restrictions_loop r1 numRestrictions []

/-- Sequencing helper for the state-passing embedding: run the
continuation on a successful result, propagate the error and the state
otherwise (the shape every `?` in the Rust decoders has). -/
def iostep {α β : Type} (x : Except IoErr α × Base64BitReader)
    (f : α → Base64BitReader → Except IoErr β × Base64BitReader) :
    Except IoErr β × Base64BitReader :=
  match x with
  | (.ok a, r) => f a r
  | (.error e, r) => (.error e, r)

/-- Modelled from the spec: the `datetime_as_unix_timestamp` field
reader of `crate::core` (not under `src/`) — "timestamps (stored as a
tick count since an epoch, scaled to produce Unix-epoch seconds)"; a
36-bit tick count in deciseconds, divided by 10 as in the reference
decoders. -/
def read_datetime (r : Base64BitReader) : Except IoErr Nat × Base64BitReader :=
  iostep (Base64BitReader.read_unsigned r 64 36) fun v r1 => (.ok (v / 10), r1)

/-- Modelled from the spec: the `string(n)` field reader of
`crate::core` (not under `src/`) — "short fixed-length language/country
codes (each character is a small-width field mapped back to an ASCII
letter)"; each character is a 6-bit value plus the code of letter A. -/
def read_string_chars (r : Base64BitReader) (n : Nat) :
    Except IoErr (List Nat) × Base64BitReader :=
  match n with
  | 0 => (.ok [], r)
  | m + 1 =>
    match Base64BitReader.read_unsigned r 8 6 with
    | (.error e, r1) => (.error e, r1)
    | (.ok c, r1) =>
      match read_string_chars r1 m with
      | (.ok l, r2) => (.ok ((c + 65) :: l), r2)
      | (.error e, r2) => (.error e, r2)

/-- The position loop of the fixed-bitfield decoder, inserting the
1-based position of every set bit; position `i` runs up to `n`. -/
def read_fixed_bitfield_loop (r : Base64BitReader) (ids : Finset Nat)
    (i n : Nat) : Except IoErr (Finset Nat) × Base64BitReader :=
  if h : i ≤ n then
    match Base64BitReader.read_bit r with
    | (.error e, r1) => (.error e, r1)
    | (.ok b, r1) =>
        read_fixed_bitfield_loop r1 (if b then insert i ids else ids) (i + 1) n
  else (.ok ids, r)
  termination_by n + 1 - i
  decreasing_by
    omega

/-- Modelled from the spec: the `fixed_bitfield(N)` field reader of
`crate::core` (not under `src/`) — "read N bits; bit i (counting from
the most significant bit read, 1-based) present means ID i is a
member". -/
def read_fixed_bitfield (r : Base64BitReader) (n : Nat) :
    Except IoErr (Finset Nat) × Base64BitReader :=
  read_fixed_bitfield_loop r ∅ 1 n

/-- The entry loop of the compact ("optimized") range decoding: per
entry one `is_group` flag bit; a group inserts the inclusive 16-bit
interval, a non-group inserts one 16-bit id. -/
def read_integer_range_loop (r : Base64BitReader) (k : Nat)
    (ids : Finset Nat) : Except IoErr (Finset Nat) × Base64BitReader :=
  match k with
  | 0 => (.ok ids, r)
  | k1 + 1 =>
    match Base64BitReader.read_bit r with
    | (.error e, r1) => (.error e, r1)
    | (.ok isGroup, r1) =>
      if isGroup then
        iostep (Base64BitReader.read_unsigned r1 16 16) fun start r2 =>
        iostep (Base64BitReader.read_unsigned r2 16 16) fun stop r3 =>
        read_integer_range_loop r3 k1 (insert_id_range ids start stop)
      else
        iostep (Base64BitReader.read_unsigned r1 16 16) fun id r2 =>
        read_integer_range_loop r2 k1 (insert id ids)

/-- Modelled from the spec: the bare-set compact range decoder of
`crate::core` (not under `src/`) — "read a 12-bit ... count of entries
n; for each entry read one flag bit is_group; if is_group is false
read one 16-bit ID and insert it; if true, read a 16-bit start and a
16-bit end and insert every integer in the inclusive interval". -/
def read_integer_range (r : Base64BitReader) :
    Except IoErr (Finset Nat) × Base64BitReader :=
  iostep (Base64BitReader.read_unsigned r 16 12) fun n r1 =>
  read_integer_range_loop r1 n ∅

/-- Modelled from the spec: the decoder behind the
`optimized_integer_range` attribute on the TCF CA vendor consent
fields (`crate::core`, not under `src/`) — per the documented
deviation, "the fixed bitfield encoding is the one that must actually
be implemented"; the bit width is a leading 16-bit count, which the
spec leaves implicit. -/
def TcfCaV1.read_vendor_field (r : Base64BitReader) :
    Except IoErr (Finset Nat) × Base64BitReader :=
  iostep (Base64BitReader.read_unsigned r 16 16) fun n r1 =>
  read_fixed_bitfield r1 n

/-- `GenericRange` of `crate::core`: a keyed range entry. -/
structure GenericRange where
  key : Nat
  rangeType : Nat
  ids : Finset Nat
  deriving DecidableEq

/-- The entry loop of the keyed range list: per entry a small key, a
small discriminant and a nested compact range set; an `UnexpectedEof`
on any entry stops the loop and keeps the entries decoded so far. -/
def read_n_array_of_ranges_loop (keyBits typeBits : Nat)
    (r : Base64BitReader) (k : Nat) (acc : List GenericRange) :
    Except IoErr (List GenericRange) × Base64BitReader :=
  match k with
  | 0 => (.ok acc, r)
  | k1 + 1 =>
    match Base64BitReader.read_unsigned r 8 keyBits with
    | (.error .unexpectedEof, r1) => (.ok acc, r1)
    | (.error e, r1) => (.error e, r1)
    | (.ok key, r1) =>
      match Base64BitReader.read_unsigned r1 8 typeBits with
      | (.error .unexpectedEof, r2) => (.ok acc, r2)
      | (.error e, r2) => (.error e, r2)
      | (.ok rangeType, r2) =>
        match read_integer_range r2 with
        | (.error .unexpectedEof, r3) => (.ok acc, r3)
        | (.error e, r3) => (.error e, r3)
        | (.ok ids, r3) =>
            read_n_array_of_ranges_loop keyBits typeBits r3 k1
              (acc ++ [⟨key, rangeType, ids⟩])

/-- Modelled from the spec: `read_n_array_of_ranges` of `crate::core`
(not under `src/`) — the keyed range list of section 4.3: a 12-bit
count, then per entry a key of `keyBits` bits, a discriminant of
`typeBits` bits and a nested range-encoded set, with the shared
edge-case policy (end-of-input on a trailing entry stops early and
returns everything decoded so far; failure on the very first mandatory
field, the count, is a hard error). -/
def read_n_array_of_ranges (r : Base64BitReader) (keyBits typeBits : Nat) :
    Except IoErr (List GenericRange) × Base64BitReader :=
  match Base64BitReader.read_unsigned r 16 12 with
  | (.error e, r1) => (.error e, r1)
  | (.ok n, r1) => read_n_array_of_ranges_loop keyBits typeBits r1 n []

/-- `RestrictionType` of `sections/tcfcav1.rs`. -/
inductive TcfCaV1.RestrictionType where
  | notAllowed
  | requireExpressConsent
  | requireImpliedConsent
  | undefined
  deriving DecidableEq, Repr

/-- `RestrictionType::from_u8(..).unwrap_or(RestrictionType::Undefined)`
for the TCF CA enum. -/
def TcfCaV1.restriction_type_of (n : Nat) : TcfCaV1.RestrictionType :=
  match n with
  | 0 => .notAllowed
  | 1 => .requireExpressConsent
  | 2 => .requireImpliedConsent
  | _ => .undefined

/-- `PublisherRestriction` of `sections/tcfcav1.rs`. -/
structure TcfCaV1.PublisherRestriction where
  purposeId : Nat
  restrictionType : TcfCaV1.RestrictionType
  restrictedVendorIds : Finset Nat
  deriving DecidableEq

/-- `parse_publisher_restrictions` of `sections/tcfcav1.rs`:
`r.read_n_array_of_ranges(6, 2).unwrap_or_default()` mapped entrywise
into `PublisherRestriction` — any failure of the keyed range list read
is replaced by the default empty vector and the function returns
`Ok`. -/
def TcfCaV1.parse_publisher_restrictions (r : Base64BitReader) :
    Except SectionDecodeError (List TcfCaV1.PublisherRestriction) × Base64BitReader :=
  match read_n_array_of_ranges r 6 2 with
  | (.error _, r1) => (.ok [], r1)
  | (.ok l, r1) =>
      (.ok (l.map fun g => ⟨g.key, TcfCaV1.restriction_type_of g.rangeType, g.ids⟩), r1)

/-- The fields of `CoreData` in `sections/tcfcav1.rs` before the
publisher restriction list, in declared order.  Bit widths of the
plain integer fields are modelled from the spec's field catalogue
(the derive macro is not under `src/`): 12-bit CMP id and versions,
6-bit screen and policy version, as in every TCF core layout. -/
structure TcfCaV1.CorePrefix where
  created : Nat
  lastUpdated : Nat
  cmpId : Nat
  cmpVersion : Nat
  consentScreen : Nat
  consentLanguage : List Nat
  vendorListVersion : Nat
  policyVersion : Nat
  useNonStandardStacks : Bool
  specialFeatureExpressConsents : Finset Nat
  purposeExpressConsents : Finset Nat
  purposeImpliedConsents : Finset Nat
  vendorExpressConsents : Finset Nat
  vendorImpliedConsents : Finset Nat
  deriving DecidableEq

/-- The strictly ordered reads of the `CoreData` fields of
`sections/tcfcav1.rs` up to and excluding `pub_restrictions`; the
vendor consent fields use the deviation decoder
`TcfCaV1.read_vendor_field`. -/
def TcfCaV1.core_prefix (r : Base64BitReader) :
    Except IoErr TcfCaV1.CorePrefix × Base64BitReader :=
  iostep (read_datetime r) fun created r =>
  iostep (read_datetime r) fun lastUpdated r =>
  iostep (Base64BitReader.read_unsigned r 16 12) fun cmpId r =>
  iostep (Base64BitReader.read_unsigned r 16 12) fun cmpVersion r =>
  iostep (Base64BitReader.read_unsigned r 8 6) fun consentScreen r =>
  iostep (read_string_chars r 2) fun consentLanguage r =>
  iostep (Base64BitReader.read_unsigned r 16 12) fun vendorListVersion r =>
  iostep (Base64BitReader.read_unsigned r 8 6) fun policyVersion r =>
  iostep (Base64BitReader.read_bit r) fun useNonStandardStacks r =>
  iostep (read_fixed_bitfield r 12) fun specialFeatureExpressConsents r =>
  iostep (read_fixed_bitfield r 24) fun purposeExpressConsents r =>
  iostep (read_fixed_bitfield r 24) fun purposeImpliedConsents r =>
  iostep (TcfCaV1.read_vendor_field r) fun vendorExpressConsents r =>
  iostep (TcfCaV1.read_vendor_field r) fun vendorImpliedConsents r =>
  (.ok ⟨created, lastUpdated, cmpId, cmpVersion, consentScreen, consentLanguage,
        vendorListVersion, policyVersion, useNonStandardStacks,
        specialFeatureExpressConsents, purposeExpressConsents,
        purposeImpliedConsents, vendorExpressConsents, vendorImpliedConsents⟩, r)

/-- The full `CoreData` parse of `sections/tcfcav1.rs`: the prefix
fields (whose read failures become `SectionDecodeError::Read`) followed
by `parse_publisher_restrictions`. -/
def TcfCaV1.core_data (r : Base64BitReader) :
    Except SectionDecodeError (TcfCaV1.CorePrefix × List TcfCaV1.PublisherRestriction)
      × Base64BitReader :=
  match TcfCaV1.core_prefix r with
  | (.error e, r1) => (.error (.read e), r1)
  | (.ok pre, r1) =>
    match TcfCaV1.parse_publisher_restrictions r1 with
    | (.error e, r2) => (.error e, r2)
    | (.ok pubs, r2) => (.ok (pre, pubs), r2)

/-- `Core` of `sections/tcfcav1.rs` (segment version, flattened core
data and restriction list; the data fields are kept bundled in the
prefix record). -/
structure TcfCaV1.Core where
  segmentVersion : Nat
  data : TcfCaV1.CorePrefix
  pubRestrictions : List TcfCaV1.PublisherRestriction
  deriving DecidableEq

/-- `impl FromBitStream for Core` in `sections/tcfcav1.rs`: read the
6-bit segment version first; a value other than 1 or 2 is a fatal
`UnknownSegmentVersion` carrying the value; otherwise parse
`CoreData`. -/
def TcfCaV1.core_from_reader (r : Base64BitReader) :
    Except SectionDecodeError TcfCaV1.Core × Base64BitReader :=
  match Base64BitReader.read_unsigned r 8 6 with
  | (.error e, r1) => (.error (.read e), r1)
  | (.ok segmentVersion, r1) =>
    if segmentVersion ≠ 1 ∧ segmentVersion ≠ 2 then
      (.error (.unknownSegmentVersion segmentVersion), r1)
    else
      match TcfCaV1.core_data r1 with
      | (.error e, r2) => (.error e, r2)
      | (.ok (pre, pubs), r2) => (.ok ⟨segmentVersion, pre, pubs⟩, r2)

/-- The fields of `Core` in `sections/tcfeuv2.rs` before the publisher
restriction list, in declared order; widths as in the CA prefix, the
vendor fields use the compact range decoder per the spec's encoding
catalogue. -/
structure TcfEuV2.CorePrefix where
  created : Nat
  lastUpdated : Nat
  cmpId : Nat
  cmpVersion : Nat
  consentScreen : Nat
  consentLanguage : List Nat
  vendorListVersion : Nat
  policyVersion : Nat
  isServiceSpecific : Bool
  useNonStandardStacks : Bool
  specialFeatureOptins : Finset Nat
  purposeConsents : Finset Nat
  purposeLegitimateInterests : Finset Nat
  purposeOneTreatment : Bool
  publisherCountryCode : List Nat
  vendorConsents : Finset Nat
  vendorLegitimateInterests : Finset Nat
  deriving DecidableEq

/-- The strictly ordered reads of the TCF EU v2 core fields up to and
excluding `publisher_restrictions` (the derive macro expansion is not
under `src/`; field list and order are from the struct declaration in
`sections/tcfeuv2.rs`, the individual field readers are the section 4.2
and 4.3 ones). -/
def TcfEuV2.core_prefix (r : Base64BitReader) :
    Except IoErr TcfEuV2.CorePrefix × Base64BitReader :=
  iostep (read_datetime r) fun created r =>
  iostep (read_datetime r) fun lastUpdated r =>
  iostep (Base64BitReader.read_unsigned r 16 12) fun cmpId r =>
  iostep (Base64BitReader.read_unsigned r 16 12) fun cmpVersion r =>
  iostep (Base64BitReader.read_unsigned r 8 6) fun consentScreen r =>
  iostep (read_string_chars r 2) fun consentLanguage r =>
  iostep (Base64BitReader.read_unsigned r 16 12) fun vendorListVersion r =>
  iostep (Base64BitReader.read_unsigned r 8 6) fun policyVersion r =>
  iostep (Base64BitReader.read_bit r) fun isServiceSpecific r =>
  iostep (Base64BitReader.read_bit r) fun useNonStandardStacks r =>
  iostep (read_fixed_bitfield r 12) fun specialFeatureOptins r =>
  iostep (read_fixed_bitfield r 24) fun purposeConsents r =>
  iostep (read_fixed_bitfield r 24) fun purposeLegitimateInterests r =>
  iostep (Base64BitReader.read_bit r) fun purposeOneTreatment r =>
  iostep (read_string_chars r 2) fun publisherCountryCode r =>
  iostep (read_integer_range r) fun vendorConsents r =>
  iostep (read_integer_range r) fun vendorLegitimateInterests r =>
  (.ok ⟨created, lastUpdated, cmpId, cmpVersion, consentScreen, consentLanguage,
        vendorListVersion, policyVersion, isServiceSpecific, useNonStandardStacks,
        specialFeatureOptins, purposeConsents, purposeLegitimateInterests,
        purposeOneTreatment, publisherCountryCode, vendorConsents,
        vendorLegitimateInterests⟩, r)

/-- The full TCF EU v2 core data parse: prefix fields then
`parse_publisher_restrictions` of `sections/tcfeuv2.rs`. -/
def TcfEuV2.core_data (r : Base64BitReader) :
    Except SectionDecodeError (TcfEuV2.CorePrefix × List TcfEuV2.PublisherRestriction)
      × Base64BitReader :=
  match TcfEuV2.core_prefix r with
  | (.error e, r1) => (.error (.read e), r1)
  | (.ok pre, r1) =>
    match TcfEuV2.parse_publisher_restrictions r1 with
    | (.error e, r2) => (.error e, r2)
    | (.ok pubs, r2) => (.ok (pre, pubs), r2)

/-- `Core` of `sections/tcfeuv2.rs`. -/
structure TcfEuV2.Core where
  segmentVersion : Nat
  data : TcfEuV2.CorePrefix
  publisherRestrictions : List TcfEuV2.PublisherRestriction
  deriving DecidableEq

/-- Modelled from the spec: the `FromBitStream` implementation the
`gpp(section_version = 2)` derive generates for the TCF EU v2 `Core`
(the derive macro is not under `src/`) — "Reads a small fixed-width
segment version field first; this value must be a member of the set of
versions the section format accepts (... exactly 2 for another); any
other value is a fatal UnknownSegmentVersion failure carrying the
offending value".  The version field is 6 bits wide as in the CA
core. -/
def TcfEuV2.core_from_reader (r : Base64BitReader) :
    Except SectionDecodeError TcfEuV2.Core × Base64BitReader :=
  match Base64BitReader.read_unsigned r 8 6 with
  | (.error e, r1) => (.error (.read e), r1)
  | (.ok segmentVersion, r1) =>
    if segmentVersion ≠ 2 then
      (.error (.unknownSegmentVersion segmentVersion), r1)
    else
      match TcfEuV2.core_data r1 with
      | (.error e, r2) => (.error e, r2)
      | (.ok (pre, pubs), r2) => (.ok ⟨segmentVersion, pre, pubs⟩, r2)

/-- Reference table-driven base64url decoding (the independent
specification the slice reader is compared against): groups of four
6-bit symbol values give three bytes; a no-padding tail of one, two or
three symbols gives its full bytes followed by the 1 to 7 leftover
bits emitted left-justified as one final byte. -/
def base64_ref_decode (l : List Nat) : List Nat :=
  match l with
  | a :: b :: c :: d :: rest =>
      let va := (base64_value a).getD 0
      let vb := (base64_value b).getD 0
      let vc := (base64_value c).getD 0
      let vd := (base64_value d).getD 0
      (va * 4 + vb / 16) :: (vb % 16 * 16 + vc / 4) :: (vc % 4 * 64 + vd) ::
        base64_ref_decode rest
  | [a, b, c] =>
      let va := (base64_value a).getD 0
      let vb := (base64_value b).getD 0
      let vc := (base64_value c).getD 0
      [va * 4 + vb / 16, vb % 16 * 16 + vc / 4, vc % 4 * 64]
  | [a, b] =>
      let va := (base64_value a).getD 0
      let vb := (base64_value b).getD 0
      [va * 4 + vb / 16, vb % 16 * 16]
  | [a] =>
      let va := (base64_value a).getD 0
      [va * 4]
  | [] => []

/-- The slice reader states reachable from a fresh reader on a given
input by any sequence of `read` calls (with arbitrary buffer sizes,
successful or not). -/
inductive SliceReachable (input : List Nat) : Base64SliceReader → Prop where
  | refl : SliceReachable input (Base64SliceReader.new input)
  | step (s : Base64SliceReader) (n : Nat) :
      SliceReachable input s →
      SliceReachable input (Base64SliceReader.read s n).2

/-- Every byte of the input is in the URL-safe base64 alphabet. -/
def ValidB64 (l : List Nat) : Prop :=
  ∀ b ∈ l, (base64_value b).isSome

/-- The resting-state invariant of the bit reader: fewer than 8 pending
bits, and the pending byte holds nothing above them.  It holds for a
fresh reader and is preserved by every operation. -/
def BitInv (r : Base64BitReader) : Prop :=
  r.bits < 8 ∧ r.value < 2 ^ r.bits

/-- The set a fixed bitfield denotes, computed from the list of bits
read: bit number `k` of `bl` (0-based) set means id `i + k` is a
member.  Auxiliary notion for stating bitfield properties. -/
def bitfield_set : List Bool → Nat → Finset Nat → Finset Nat
  | [], _, ids => ids
  | b :: rest, i, ids => bitfield_set rest (i + 1) (if b then insert i ids else ids)

/-!  Theorems.  First the bound and invariant lemmas about the slice
reader, then the claim theorems. -/

theorem base64_value_lt {b v : Nat} (h : base64_value b = some v) : v < 64 := by
  unfold base64_value base64_decode_table at h
  repeat' split at h
  all_goals simp_all
  all_goals omega

theorem base64_value_isSome_getD {b : Nat} (h : (base64_value b).isSome) :
    base64_value b = some ((base64_value b).getD 0) := by
  cases hb : base64_value b with
  | none => rw [hb] at h; simp at h
  | some v => simp

/-- `fill` preserves the accumulator invariant: at most 13 valid bits,
and nothing above them. -/
theorem fill_inv (s : Base64SliceReader) (h13 : s.bits ≤ 13)
    (hacc : s.acc < 2 ^ s.bits) :
    (Base64SliceReader.fill s).2.bits ≤ 13 ∧
      (Base64SliceReader.fill s).2.acc < 2 ^ (Base64SliceReader.fill s).2.bits := by
  induction s using Base64SliceReader.fill.induct with
  | case1 s h byte hb =>
      unfold Base64SliceReader.fill
      rw [dif_pos h]
      simp only [hb]
      exact ⟨h13, hacc⟩
  | case2 s h byte v hb ih =>
      unfold Base64SliceReader.fill
      rw [dif_pos h]
      simp only [hb]
      have hv : v < 64 := base64_value_lt hb
      have hb8 : s.bits < 8 := h.1
      have hsmall : s.acc * 64 < 2 ^ 32 := by
        have : s.acc < 2 ^ 7 := lt_of_lt_of_le hacc (Nat.pow_le_pow_right (by norm_num) (by omega))
        omega
      apply ih
      · simp; omega
      · simp only
        calc s.acc * 64 % 2 ^ 32 + v = s.acc * 64 + v := by rw [Nat.mod_eq_of_lt hsmall]
        _ < 2 ^ s.bits * 64 := by omega
        _ = 2 ^ (s.bits + 6) := by rw [pow_add]; norm_num
  | case3 s h =>
      unfold Base64SliceReader.fill
      rw [dif_neg h]
      exact ⟨h13, hacc⟩

/-- `read` preserves the accumulator invariant. -/
theorem read_inv (n : Nat) (s : Base64SliceReader) (h13 : s.bits ≤ 13)
    (hacc : s.acc < 2 ^ s.bits) :
    (Base64SliceReader.read s n).2.bits ≤ 13 ∧
      (Base64SliceReader.read s n).2.acc < 2 ^ (Base64SliceReader.read s n).2.bits := by
  induction n generalizing s with
  | zero => exact ⟨h13, hacc⟩
  | succ m ih =>
    unfold Base64SliceReader.read
    have hf := fill_inv s h13 hacc
    rcases hfe : Base64SliceReader.fill s with ⟨ob, s1⟩
    rw [hfe] at hf
    dsimp only at hf
    cases ob with
    | some ob => simpa using hf
    | none =>
      simp only
      split
      · rename_i h8
        have h1 : s1.bits - 8 ≤ 13 := by omega
        have h2 : s1.acc % 2 ^ (s1.bits - 8) < 2 ^ (s1.bits - 8) :=
          Nat.mod_lt _ (Nat.pos_pow_of_pos _ (by norm_num))
        have := ih { s1 with bits := s1.bits - 8, acc := s1.acc % 2 ^ (s1.bits - 8) } h1 h2
        rcases hre : Base64SliceReader.read
            { s1 with bits := s1.bits - 8, acc := s1.acc % 2 ^ (s1.bits - 8) } m with ⟨res, s2⟩
        rw [hre] at this
        cases res <;> simpa using this
      · split
        · simp
        · exact hf

/-- Claim C9: in every state of the alphabet decoder reachable from a
fresh reader by any sequence of `read` calls, the valid-bit count is
between 0 and 13 inclusive and only the low `bits` bits of the
accumulator are nonzero. -/
theorem slice_reader_invariant (input : List Nat) (s : Base64SliceReader)
    (h : SliceReachable input s) : s.bits ≤ 13 ∧ s.acc < 2 ^ s.bits := by
  induction h with
  | refl => exact ⟨by simp [Base64SliceReader.new], by simp [Base64SliceReader.new]⟩
  | step s n _ ih => exact read_inv n s ih.1 ih.2

/-- Witness for C9 at a concrete reachable state. -/
theorem slice_reader_invariant_witness :
    (Base64SliceReader.read (Base64SliceReader.new [68, 66, 65, 66, 77]) 2).2.bits ≤ 13 ∧
      (Base64SliceReader.read (Base64SliceReader.new [68, 66, 65, 66, 77]) 2).2.acc <
        2 ^ (Base64SliceReader.read (Base64SliceReader.new [68, 66, 65, 66, 77]) 2).2.bits :=
  slice_reader_invariant [68, 66, 65, 66, 77] _
    (SliceReachable.step _ 2 (SliceReachable.refl))

/-- Where `fill` stops when the first invalid input byte sits at index
`f` ahead of the cursor: either it consumes up to `f` and reports
exactly `(f, input[f])`, or it stops earlier with 8 to 13 valid bits,
having advanced the cursor without passing `f`. -/
theorem fill_first_invalid (s : Base64SliceReader) (f : Nat)
    (hpos : s.inputPos ≤ f) (hflen : f < s.input.length)
    (hvalid : ∀ j, s.inputPos ≤ j → j < f → (base64_value (s.input.getD j 0)).isSome)
    (hinv : base64_value (s.input.getD f 0) = none)
    (h13 : s.bits ≤ 13) :
    (∃ s', Base64SliceReader.fill s = (some (f, s.input.getD f 0), s')) ∨
    (∃ s', Base64SliceReader.fill s = (none, s') ∧ 8 ≤ s'.bits ∧ s'.bits ≤ 13 ∧
      s'.inputPos ≤ f ∧ s'.input = s.input ∧
      (s.bits < 8 → s.inputPos < s'.inputPos) ∧ s.inputPos ≤ s'.inputPos) := by
  induction s using Base64SliceReader.fill.induct with
  | case1 s h byte hb =>
      left
      have hpf : s.inputPos = f := by
        by_contra hne
        have := hvalid s.inputPos le_rfl (by omega)
        rw [show s.input.getD s.inputPos 0 = byte from rfl, hb] at this
        simp at this
      refine ⟨{ s with inputPos := s.inputPos + 1 }, ?_⟩
      unfold Base64SliceReader.fill
      rw [dif_pos h]
      simp only [hb, hpf, hinv]
  | case2 s h byte v hb ih =>
      have hpf : s.inputPos ≠ f := by
        intro hpf
        rw [← hpf] at hinv
        rw [show s.input.getD s.inputPos 0 = byte from rfl, hb] at hinv
        simp at hinv
      have hlt : s.inputPos < f := by omega
      have hstep : Base64SliceReader.fill s =
          Base64SliceReader.fill
            { s with inputPos := s.inputPos + 1,
                     acc := s.acc * 64 % 2 ^ 32 + v, bits := s.bits + 6 } := by
        conv_lhs => unfold Base64SliceReader.fill
        rw [dif_pos h]
        simp only [hb]
      have hb8 : s.bits < 8 := h.1
      rcases ih (by simpa using by omega) (by simpa using hflen)
          (by intro j hj1 hj2; exact hvalid j (by simp at hj1 ⊢; omega) hj2)
          (by simpa using hinv) (by simp; omega) with hl | ⟨s', h1, h2, h3, h4, h5, h6, h7⟩
      · left
        rw [hstep]
        simpa using hl
      · right
        refine ⟨s', by rw [hstep]; exact h1, h2, h3, h4, by simpa using h5, ?_, ?_⟩
        · intro _
          simp at h7
          omega
        · simp at h7
          omega
  | case3 s h =>
      right
      have h8 : 8 ≤ s.bits := by
        rcases not_and_or.mp h with hb | hp
        · omega
        · omega
      refine ⟨s, ?_, h8, h13, hpos, rfl, by omega, le_rfl⟩
      unfold Base64SliceReader.fill
      rw [dif_neg h]

/-- The only error constructor `Base64SliceReader::read` ever produces
is `InvalidData` (the wrapped `DecodeError::InvalidByte`). -/
theorem read_error_only_invalid (n : Nat) (s : Base64SliceReader)
    (e : IoErr) (s' : Base64SliceReader)
    (h : Base64SliceReader.read s n = (.error e, s')) :
    ∃ off b, e = .invalidData off b := by
  induction n generalizing s s' with
  | zero => simp [Base64SliceReader.read] at h
  | succ m ih =>
    unfold Base64SliceReader.read at h
    rcases hfe : Base64SliceReader.fill s with ⟨ob, s1⟩
    rw [hfe] at h
    cases ob with
    | some ob =>
        simp only at h
        cases h
        exact ⟨ob.1, ob.2, rfl⟩
    | none =>
      simp only at h
      split at h
      · rcases hre : Base64SliceReader.read
            { s1 with bits := s1.bits - 8, acc := s1.acc % 2 ^ (s1.bits - 8) } m with ⟨res, s2⟩
        rw [hre] at h
        cases res with
        | ok l => simp at h
        | error e2 =>
            simp only at h
            cases h
            exact ih _ _ hre
      · split at h
        · simp at h
        · simp at h

/-- When the input holds an invalid byte at index `f`, everything
before the cursor's window up to `f` valid, and the buffer budget
reaches `f`, `read` fails with exactly `InvalidByte(f, input[f])`. -/
theorem read_first_invalid (input : List Nat) (f : Nat) (n : Nat) :
    ∀ (s : Base64SliceReader), s.input = input → s.bits < 8 → s.inputPos ≤ f →
    f < input.length →
    (∀ j, s.inputPos ≤ j → j < f → (base64_value (input.getD j 0)).isSome) →
    base64_value (input.getD f 0) = none → n ≥ f - s.inputPos + 1 →
    (Base64SliceReader.read s n).1 = .error (.invalidData f (input.getD f 0)) := by
  induction n with
  | zero => intro s _ _ hpos _ _ _ hn; omega
  | succ m ih =>
    intro s hs hb8 hpos hflen hvalid hinv hn
    rcases fill_first_invalid s f hpos (by rw [hs]; exact hflen)
        (by rw [hs]; exact hvalid) (by rw [hs]; exact hinv) (by omega) with
      ⟨s', hfill⟩ | ⟨s', hfill, h8, h13, hposf, hinput, hprog, _⟩
    · unfold Base64SliceReader.read
      rw [hfill, hs]
    · unfold Base64SliceReader.read
      rw [hfill]
      simp only
      rw [if_pos h8]
      have hrec := ih { s' with bits := s'.bits - 8, acc := s'.acc % 2 ^ (s'.bits - 8) }
        (by simp [hinput, hs]) (by simp; omega) (by simpa using hposf) hflen
        (by intro j hj1 hj2; exact hvalid j (by simp at hj1; omega) hj2)
        hinv (by simp; have := hprog hb8; omega)
      rcases hre : Base64SliceReader.read
          { s' with bits := s'.bits - 8, acc := s'.acc % 2 ^ (s'.bits - 8) } m with ⟨res, s2⟩
      rw [hre] at hrec
      cases res with
      | ok l => simp at hrec
      | error e2 => simp at hrec ⊢; exact hrec

/-- Claim C4: an input byte outside the URL-safe base64 alphabet makes
the slice reader's `read` fail with `InvalidByte` carrying the
zero-based offset and value of the first such byte, and `InvalidByte`
is the only error kind the slice reader itself raises. -/
theorem alphabet_decoder_invalid_byte (input : List Nat) (f : Nat)
    (hflen : f < input.length)
    (hinv : base64_value (input.getD f 0) = none)
    (hmin : ∀ j, j < f → (base64_value (input.getD j 0)).isSome) :
    (Base64SliceReader.read (Base64SliceReader.new input) input.length).1 =
      .error (.invalidData f (input.getD f 0)) ∧
    (∀ (n : Nat) (e : IoErr) (s' : Base64SliceReader),
      Base64SliceReader.read (Base64SliceReader.new input) n = (.error e, s') →
      ∃ off b, e = .invalidData off b) := by
  constructor
  · exact read_first_invalid input f input.length (Base64SliceReader.new input)
      rfl (by simp [Base64SliceReader.new]) (by simp [Base64SliceReader.new])
      hflen (fun j _ hj => hmin j hj) hinv (by simp [Base64SliceReader.new]; omega)
  · intro n e s' h
    exact read_error_only_invalid n _ e s' h

/-- Witness for C4: the spec's own example, input `a` then two spaces,
fails at offset 1 with byte 32. -/
theorem alphabet_decoder_invalid_byte_witness :
    (Base64SliceReader.read (Base64SliceReader.new [97, 32, 32]) 3).1 =
      .error (.invalidData 1 32) :=
  (alphabet_decoder_invalid_byte [97, 32, 32] 1 (by norm_num) (by decide)
    (by decide)).1

/-- One consuming step of `fill` on a valid input byte. -/
theorem fill_step (s : Base64SliceReader) (v : Nat)
    (h8 : s.bits < 8) (hlen : s.inputPos < s.input.length)
    (hv : base64_value (s.input.getD s.inputPos 0) = some v) :
    Base64SliceReader.fill s =
      Base64SliceReader.fill
        ⟨s.input, s.inputPos + 1, s.acc * 64 % 2 ^ 32 + v, s.bits + 6⟩ := by
  conv_lhs => unfold Base64SliceReader.fill
  rw [dif_pos ⟨h8, hlen⟩]
  simp only [hv]

/-- `fill` does nothing once 8 bits are buffered or input is gone. -/
theorem fill_stop (s : Base64SliceReader)
    (h : ¬(s.bits < 8 ∧ s.inputPos < s.input.length)) :
    Base64SliceReader.fill s = (none, s) := by
  unfold Base64SliceReader.fill
  rw [dif_neg h]

/-- One iteration of `read` in the byte-extraction branch. -/
theorem read_step_extract (s s1 : Base64SliceReader) (m : Nat)
    (hf : Base64SliceReader.fill s = (none, s1)) (h8 : s1.bits ≥ 8) :
    Base64SliceReader.read s (m + 1) =
      (match Base64SliceReader.read
          { s1 with bits := s1.bits - 8, acc := s1.acc % 2 ^ (s1.bits - 8) } m with
       | (.ok rest, s2) => (.ok ((s1.acc / 2 ^ (s1.bits - 8) % 2 ^ 8) :: rest), s2)
       | (.error e, s2) => (.error e, s2)) := by
  conv_lhs => unfold Base64SliceReader.read
  rw [hf]
  simp only [if_pos h8]

/-- One iteration of `read` in the tail-flush branch. -/
theorem read_step_flush (s s1 : Base64SliceReader) (m : Nat)
    (hf : Base64SliceReader.fill s = (none, s1)) (h8 : s1.bits < 8)
    (hend : s1.inputPos = s1.input.length) (hpos : s1.bits > 0) :
    Base64SliceReader.read s (m + 1) =
      (.ok [s1.acc * 2 ^ (8 - s1.bits) % 2 ^ 8], { s1 with acc := 0, bits := 0 }) := by
  conv_lhs => unfold Base64SliceReader.read
  rw [hf]
  simp only [if_neg (by omega : ¬ s1.bits ≥ 8), if_pos (⟨hend, hpos⟩ : s1.inputPos = s1.input.length ∧ s1.bits > 0)]

/-- One iteration of `read` that stops without writing. -/
theorem read_step_done (s s1 : Base64SliceReader) (m : Nat)
    (hf : Base64SliceReader.fill s = (none, s1)) (h8 : s1.bits < 8)
    (hc : ¬(s1.inputPos = s1.input.length ∧ s1.bits > 0)) :
    Base64SliceReader.read s (m + 1) = (.ok [], s1) := by
  conv_lhs => unfold Base64SliceReader.read
  rw [hf]
  simp only [if_neg (by omega : ¬ s1.bits ≥ 8), if_neg hc]

/-- Four valid symbols starting aligned produce three bytes and leave
the reader aligned after them. -/
theorem read_group4 (input : List Nat) (pos n va vb vc vd : Nat)
    (ha : base64_value (input.getD pos 0) = some va)
    (hb : base64_value (input.getD (pos + 1) 0) = some vb)
    (hc : base64_value (input.getD (pos + 2) 0) = some vc)
    (hd : base64_value (input.getD (pos + 3) 0) = some vd)
    (hlen : pos + 4 ≤ input.length) :
    Base64SliceReader.read ⟨input, pos, 0, 0⟩ (n + 3) =
      (match Base64SliceReader.read ⟨input, pos + 4, 0, 0⟩ n with
       | (.ok rest, s2) =>
           (.ok ((va * 4 + vb / 16) :: (vb % 16 * 16 + vc / 4) ::
                 (vc % 4 * 64 + vd) :: rest), s2)
       | (.error e, s2) => (.error e, s2)) := by
  have hva := base64_value_lt ha
  have hvb := base64_value_lt hb
  have hvc := base64_value_lt hc
  have hvd := base64_value_lt hd
  have hf1 : Base64SliceReader.fill ⟨input, pos, 0, 0⟩ =
      (none, ⟨input, pos + 2, va * 64 + vb, 12⟩) := by
    rw [fill_step _ va (by norm_num) (by simp; omega) (by simpa using ha)]
    rw [show (⟨input, pos + 1, 0 * 64 % 2 ^ 32 + va, 0 + 6⟩ : Base64SliceReader)
          = ⟨input, pos + 1, va, 6⟩ by norm_num]
    rw [fill_step _ vb (by norm_num) (by simp; omega) (by simpa using hb)]
    rw [show (⟨input, pos + 1 + 1, va * 64 % 2 ^ 32 + vb, 6 + 6⟩ : Base64SliceReader)
          = ⟨input, pos + 2, va * 64 + vb, 12⟩ by
        have : va * 64 < 2 ^ 32 := by omega
        rw [Nat.mod_eq_of_lt this]]
    exact fill_stop _ (by simp)
  have hf2 : Base64SliceReader.fill ⟨input, pos + 2, vb % 16, 4⟩ =
      (none, ⟨input, pos + 3, vb % 16 * 64 + vc, 10⟩) := by
    rw [fill_step _ vc (by norm_num) (by simp; omega) (by simpa using hc)]
    rw [show (⟨input, pos + 2 + 1, vb % 16 * 64 % 2 ^ 32 + vc, 4 + 6⟩ : Base64SliceReader)
          = ⟨input, pos + 3, vb % 16 * 64 + vc, 10⟩ by
        have : vb % 16 * 64 < 2 ^ 32 := by omega
        rw [Nat.mod_eq_of_lt this]]
    exact fill_stop _ (by simp)
  have hf3 : Base64SliceReader.fill ⟨input, pos + 3, vc % 4, 2⟩ =
      (none, ⟨input, pos + 4, vc % 4 * 64 + vd, 8⟩) := by
    rw [fill_step _ vd (by norm_num) (by simp; omega) (by simpa using hd)]
    rw [show (⟨input, pos + 3 + 1, vc % 4 * 64 % 2 ^ 32 + vd, 2 + 6⟩ : Base64SliceReader)
          = ⟨input, pos + 4, vc % 4 * 64 + vd, 8⟩ by
        have : vc % 4 * 64 < 2 ^ 32 := by omega
        rw [Nat.mod_eq_of_lt this]]
    exact fill_stop _ (by simp)
  rw [read_step_extract _ _ (n + 2) hf1 (by norm_num)]
  rw [show ({ (⟨input, pos + 2, va * 64 + vb, 12⟩ : Base64SliceReader) with
        bits := 12 - 8, acc := (va * 64 + vb) % 2 ^ (12 - 8) } : Base64SliceReader)
      = ⟨input, pos + 2, vb % 16, 4⟩ by
    simp only
    congr 1
    omega]
  rw [read_step_extract _ _ (n + 1) hf2 (by norm_num)]
  rw [show ({ (⟨input, pos + 3, vb % 16 * 64 + vc, 10⟩ : Base64SliceReader) with
        bits := 10 - 8, acc := (vb % 16 * 64 + vc) % 2 ^ (10 - 8) } : Base64SliceReader)
      = ⟨input, pos + 3, vc % 4, 2⟩ by
    simp only
    congr 1
    omega]
  rw [read_step_extract _ _ n hf3 (by norm_num)]
  rw [show ({ (⟨input, pos + 4, vc % 4 * 64 + vd, 8⟩ : Base64SliceReader) with
        bits := 8 - 8, acc := (vc % 4 * 64 + vd) % 2 ^ (8 - 8) } : Base64SliceReader)
      = ⟨input, pos + 4, 0, 0⟩ by
    simp only
    congr 1
    omega]
  have e1 : (va * 64 + vb) / 2 ^ (12 - 8) % 2 ^ 8 = va * 4 + vb / 16 := by omega
  have e2 : (vb % 16 * 64 + vc) / 2 ^ (10 - 8) % 2 ^ 8 = vb % 16 * 16 + vc / 4 := by omega
  have e3 : (vc % 4 * 64 + vd) / 2 ^ (8 - 8) % 2 ^ 8 = vc % 4 * 64 + vd := by omega
  rw [e1, e2, e3]
  rcases hr : Base64SliceReader.read ⟨input, pos + 4, 0, 0⟩ n with ⟨res, s2⟩
  cases res <;> simp

/-- A single trailing valid symbol flushes as one left-justified byte. -/
theorem read_tail1 (input : List Nat) (pos n va : Nat)
    (ha : base64_value (input.getD pos 0) = some va)
    (hlen : pos + 1 = input.length) :
    Base64SliceReader.read ⟨input, pos, 0, 0⟩ (n + 1) =
      (.ok [va * 4], ⟨input, pos + 1, 0, 0⟩) := by
  have hva := base64_value_lt ha
  have hf : Base64SliceReader.fill ⟨input, pos, 0, 0⟩ =
      (none, ⟨input, pos + 1, va, 6⟩) := by
    rw [fill_step _ va (by norm_num) (by simp; omega) (by simpa using ha)]
    rw [show (⟨input, pos + 1, 0 * 64 % 2 ^ 32 + va, 0 + 6⟩ : Base64SliceReader)
          = ⟨input, pos + 1, va, 6⟩ by norm_num]
    exact fill_stop _ (by simp; omega)
  rw [read_step_flush _ _ n hf (by norm_num) (by simpa using hlen.symm ▸ rfl) (by norm_num)]
  have : va * 2 ^ (8 - 6) % 2 ^ 8 = va * 4 := by omega
  rw [this]

/-- Two trailing valid symbols give one full byte and one flushed
4-bit tail byte. -/
theorem read_tail2 (input : List Nat) (pos n va vb : Nat)
    (ha : base64_value (input.getD pos 0) = some va)
    (hb : base64_value (input.getD (pos + 1) 0) = some vb)
    (hlen : pos + 2 = input.length) :
    Base64SliceReader.read ⟨input, pos, 0, 0⟩ (n + 2) =
      (.ok [va * 4 + vb / 16, vb % 16 * 16], ⟨input, pos + 2, 0, 0⟩) := by
  have hva := base64_value_lt ha
  have hvb := base64_value_lt hb
  have hf1 : Base64SliceReader.fill ⟨input, pos, 0, 0⟩ =
      (none, ⟨input, pos + 2, va * 64 + vb, 12⟩) := by
    rw [fill_step _ va (by norm_num) (by simp; omega) (by simpa using ha)]
    rw [show (⟨input, pos + 1, 0 * 64 % 2 ^ 32 + va, 0 + 6⟩ : Base64SliceReader)
          = ⟨input, pos + 1, va, 6⟩ by norm_num]
    rw [fill_step _ vb (by norm_num) (by simp; omega) (by simpa using hb)]
    rw [show (⟨input, pos + 1 + 1, va * 64 % 2 ^ 32 + vb, 6 + 6⟩ : Base64SliceReader)
          = ⟨input, pos + 2, va * 64 + vb, 12⟩ by
        have : va * 64 < 2 ^ 32 := by omega
        rw [Nat.mod_eq_of_lt this]]
    exact fill_stop _ (by simp)
  rw [read_step_extract _ _ (n + 1) hf1 (by norm_num)]
  rw [show ({ (⟨input, pos + 2, va * 64 + vb, 12⟩ : Base64SliceReader) with
        bits := 12 - 8, acc := (va * 64 + vb) % 2 ^ (12 - 8) } : Base64SliceReader)
      = ⟨input, pos + 2, vb % 16, 4⟩ by
    simp only
    congr 1
    omega]
  have hf2 : Base64SliceReader.fill ⟨input, pos + 2, vb % 16, 4⟩ =
      (none, ⟨input, pos + 2, vb % 16, 4⟩) := fill_stop _ (by simp; omega)
  rw [read_step_flush _ _ n hf2 (by norm_num) (by simpa using hlen.symm ▸ rfl) (by norm_num)]
  have e1 : (va * 64 + vb) / 2 ^ (12 - 8) % 2 ^ 8 = va * 4 + vb / 16 := by omega
  have e2 : vb % 16 * 2 ^ (8 - 4) % 2 ^ 8 = vb % 16 * 16 := by omega
  rw [e1, e2]

/-- Three trailing valid symbols give two full bytes and one flushed
2-bit tail byte. -/
theorem read_tail3 (input : List Nat) (pos n va vb vc : Nat)
    (ha : base64_value (input.getD pos 0) = some va)
    (hb : base64_value (input.getD (pos + 1) 0) = some vb)
    (hc : base64_value (input.getD (pos + 2) 0) = some vc)
    (hlen : pos + 3 = input.length) :
    Base64SliceReader.read ⟨input, pos, 0, 0⟩ (n + 3) =
      (.ok [va * 4 + vb / 16, vb % 16 * 16 + vc / 4, vc % 4 * 64],
       ⟨input, pos + 3, 0, 0⟩) := by
  have hva := base64_value_lt ha
  have hvb := base64_value_lt hb
  have hvc := base64_value_lt hc
  have hf1 : Base64SliceReader.fill ⟨input, pos, 0, 0⟩ =
      (none, ⟨input, pos + 2, va * 64 + vb, 12⟩) := by
    rw [fill_step _ va (by norm_num) (by simp; omega) (by simpa using ha)]
    rw [show (⟨input, pos + 1, 0 * 64 % 2 ^ 32 + va, 0 + 6⟩ : Base64SliceReader)
          = ⟨input, pos + 1, va, 6⟩ by norm_num]
    rw [fill_step _ vb (by norm_num) (by simp; omega) (by simpa using hb)]
    rw [show (⟨input, pos + 1 + 1, va * 64 % 2 ^ 32 + vb, 6 + 6⟩ : Base64SliceReader)
          = ⟨input, pos + 2, va * 64 + vb, 12⟩ by
        have : va * 64 < 2 ^ 32 := by omega
        rw [Nat.mod_eq_of_lt this]]
    exact fill_stop _ (by simp)
  have hf2 : Base64SliceReader.fill ⟨input, pos + 2, vb % 16, 4⟩ =
      (none, ⟨input, pos + 3, vb % 16 * 64 + vc, 10⟩) := by
    rw [fill_step _ vc (by norm_num) (by simp; omega) (by simpa using hc)]
    rw [show (⟨input, pos + 2 + 1, vb % 16 * 64 % 2 ^ 32 + vc, 4 + 6⟩ : Base64SliceReader)
          = ⟨input, pos + 3, vb % 16 * 64 + vc, 10⟩ by
        have : vb % 16 * 64 < 2 ^ 32 := by omega
        rw [Nat.mod_eq_of_lt this]]
    exact fill_stop _ (by simp)
  rw [read_step_extract _ _ (n + 2) hf1 (by norm_num)]
  rw [show ({ (⟨input, pos + 2, va * 64 + vb, 12⟩ : Base64SliceReader) with
        bits := 12 - 8, acc := (va * 64 + vb) % 2 ^ (12 - 8) } : Base64SliceReader)
      = ⟨input, pos + 2, vb % 16, 4⟩ by
    simp only
    congr 1
    omega]
  rw [read_step_extract _ _ (n + 1) hf2 (by norm_num)]
  rw [show ({ (⟨input, pos + 3, vb % 16 * 64 + vc, 10⟩ : Base64SliceReader) with
        bits := 10 - 8, acc := (vb % 16 * 64 + vc) % 2 ^ (10 - 8) } : Base64SliceReader)
      = ⟨input, pos + 3, vc % 4, 2⟩ by
    simp only
    congr 1
    omega]
  have hf3 : Base64SliceReader.fill ⟨input, pos + 3, vc % 4, 2⟩ =
      (none, ⟨input, pos + 3, vc % 4, 2⟩) := fill_stop _ (by simp; omega)
  rw [read_step_flush _ _ n hf3 (by norm_num) (by simpa using hlen.symm ▸ rfl) (by norm_num)]
  have e1 : (va * 64 + vb) / 2 ^ (12 - 8) % 2 ^ 8 = va * 4 + vb / 16 := by omega
  have e2 : (vb % 16 * 64 + vc) / 2 ^ (10 - 8) % 2 ^ 8 = vb % 16 * 16 + vc / 4 := by omega
  have e3 : vc % 4 * 2 ^ (8 - 2) % 2 ^ 8 = vc % 4 * 64 := by omega
  rw [e1, e2, e3]

/-- With the cursor at the end and an empty accumulator, `read`
produces nothing. -/
theorem read_at_end (input : List Nat) (pos n : Nat) (hpos : input.length ≤ pos) :
    Base64SliceReader.read ⟨input, pos, 0, 0⟩ n = (.ok [], ⟨input, pos, 0, 0⟩) := by
  cases n with
  | zero => rfl
  | succ m =>
      exact read_step_done _ _ m (fill_stop _ (by simp; omega)) (by norm_num)
        (by simp)

/-- On an all-valid suffix and an aligned reader, `read` with a big
enough buffer returns exactly the reference decoding of that suffix
and consumes the whole input. -/
theorem read_valid_ref (input : List Nat) (k : Nat) :
    ∀ (pos n : Nat), input.length - pos ≤ k → pos ≤ input.length →
    (∀ b ∈ input.drop pos, (base64_value b).isSome) →
    n ≥ (base64_ref_decode (input.drop pos)).length →
    Base64SliceReader.read ⟨input, pos, 0, 0⟩ n =
      (.ok (base64_ref_decode (input.drop pos)), ⟨input, input.length, 0, 0⟩) := by
  induction k with
  | zero =>
    intro pos n hk hpos _ _
    have hpe : pos = input.length := by omega
    have hde : input.drop pos = [] := List.drop_eq_nil_of_le (by omega)
    rw [hde]
    subst hpe
    exact read_at_end input _ n le_rfl
  | succ k ih =>
    intro pos n hk hpos hvalid hn
    have gd : ∀ i x, (input.drop pos)[i]? = some x → input.getD (pos + i) 0 = x := by
      intro i x h
      rw [List.getD_eq_getElem?_getD, ← List.getElem?_drop, h]
      rfl
    have hlendrop : (input.drop pos).length = input.length - pos := List.length_drop pos input
    rcases hdrop : input.drop pos with _ | ⟨a, _ | ⟨b, _ | ⟨c, _ | ⟨d, rest⟩⟩⟩⟩
    · have hpe : pos = input.length := by
        rw [hdrop] at hlendrop
        simp at hlendrop
        omega
      subst hpe
      simpa [base64_ref_decode] using read_at_end input _ n le_rfl
    -- one trailing symbol
    · have ha := hvalid a (by rw [hdrop]; simp)
      obtain ⟨va, hva⟩ := Option.isSome_iff_exists.mp ha
      have hga : input.getD pos 0 = a := gd 0 a (by rw [hdrop]; rfl)
      have hl1 : pos + 1 = input.length := by
        rw [hdrop] at hlendrop
        simp at hlendrop
        omega
      rw [hdrop] at hn
      simp [base64_ref_decode] at hn
      obtain ⟨n1, rfl⟩ := Nat.exists_eq_add_of_le hn
      rw [Nat.add_comm 1 n1]
      rw [read_tail1 input pos n1 va (by rw [hga]; exact hva) hl1]
      simp [base64_ref_decode, hva, hl1]
    -- two trailing symbols
    · have ha := hvalid a (by rw [hdrop]; simp)
      have hb := hvalid b (by rw [hdrop]; simp)
      obtain ⟨va, hva⟩ := Option.isSome_iff_exists.mp ha
      obtain ⟨vb, hvb⟩ := Option.isSome_iff_exists.mp hb
      have hga : input.getD pos 0 = a := gd 0 a (by rw [hdrop]; rfl)
      have hgb : input.getD (pos + 1) 0 = b := gd 1 b (by rw [hdrop]; rfl)
      have hl2 : pos + 2 = input.length := by
        rw [hdrop] at hlendrop
        simp at hlendrop
        omega
      rw [hdrop] at hn
      simp [base64_ref_decode] at hn
      obtain ⟨n1, rfl⟩ := Nat.exists_eq_add_of_le hn
      rw [Nat.add_comm 2 n1]
      rw [read_tail2 input pos n1 va vb (by rw [hga]; exact hva)
        (by rw [hgb]; exact hvb) hl2]
      simp [base64_ref_decode, hva, hvb, hl2]
    -- three trailing symbols
    · have ha := hvalid a (by rw [hdrop]; simp)
      have hb := hvalid b (by rw [hdrop]; simp)
      have hc := hvalid c (by rw [hdrop]; simp)
      obtain ⟨va, hva⟩ := Option.isSome_iff_exists.mp ha
      obtain ⟨vb, hvb⟩ := Option.isSome_iff_exists.mp hb
      obtain ⟨vc, hvc⟩ := Option.isSome_iff_exists.mp hc
      have hga : input.getD pos 0 = a := gd 0 a (by rw [hdrop]; rfl)
      have hgb : input.getD (pos + 1) 0 = b := gd 1 b (by rw [hdrop]; rfl)
      have hgc : input.getD (pos + 2) 0 = c := gd 2 c (by rw [hdrop]; rfl)
      have hl3 : pos + 3 = input.length := by
        rw [hdrop] at hlendrop
        simp at hlendrop
        omega
      rw [hdrop] at hn
      simp [base64_ref_decode] at hn
      obtain ⟨n1, rfl⟩ := Nat.exists_eq_add_of_le hn
      rw [Nat.add_comm 3 n1]
      rw [read_tail3 input pos n1 va vb vc (by rw [hga]; exact hva)
        (by rw [hgb]; exact hvb) (by rw [hgc]; exact hvc) hl3]
      simp [base64_ref_decode, hva, hvb, hvc, hl3]
    -- a full group of four
    · have ha := hvalid a (by rw [hdrop]; simp)
      have hb := hvalid b (by rw [hdrop]; simp)
      have hc := hvalid c (by rw [hdrop]; simp)
      have hd := hvalid d (by rw [hdrop]; simp)
      obtain ⟨va, hva⟩ := Option.isSome_iff_exists.mp ha
      obtain ⟨vb, hvb⟩ := Option.isSome_iff_exists.mp hb
      obtain ⟨vc, hvc⟩ := Option.isSome_iff_exists.mp hc
      obtain ⟨vd, hvd⟩ := Option.isSome_iff_exists.mp hd
      have hga : input.getD pos 0 = a := gd 0 a (by rw [hdrop]; rfl)
      have hgb : input.getD (pos + 1) 0 = b := gd 1 b (by rw [hdrop]; rfl)
      have hgc : input.getD (pos + 2) 0 = c := gd 2 c (by rw [hdrop]; rfl)
      have hgd : input.getD (pos + 3) 0 = d := gd 3 d (by rw [hdrop]; simp)
      have hlen4 : pos + 4 ≤ input.length := by
        rw [hdrop] at hlendrop
        simp at hlendrop
        omega
      have hrest : input.drop (pos + 4) = rest := by
        rw [← List.drop_drop 4 pos input, hdrop]
        rfl
      rw [hdrop] at hn
      simp only [base64_ref_decode, List.length_cons] at hn
      obtain ⟨n1, rfl⟩ := Nat.exists_eq_add_of_le (show 3 ≤ n by omega)
      rw [Nat.add_comm 3 n1]
      rw [read_group4 input pos n1 va vb vc vd (by rw [hga]; exact hva)
        (by rw [hgb]; exact hvb) (by rw [hgc]; exact hvc)
        (by rw [hgd]; exact hvd) hlen4]
      have hrec := ih (pos + 4) n1 (by omega) (by omega)
        (by rw [hrest]; intro x hx; exact hvalid x (by rw [hdrop]; simp [hx]))
        (by rw [hrest]; omega)
      rw [hrest] at hrec
      rw [hrec]
      have hrd : base64_ref_decode (a :: b :: c :: d :: rest) =
          (va * 4 + vb / 16) :: (vb % 16 * 16 + vc / 4) :: (vc % 4 * 64 + vd) ::
            base64_ref_decode rest := by
        conv_lhs => unfold base64_ref_decode
        simp [hva, hvb, hvc, hvd]
      rw [hrd]

/-- Length of the reference decoding: three bytes per full group of
four symbols plus one byte per leftover symbol group. -/
theorem base64_ref_decode_length (l : List Nat) :
    (base64_ref_decode l).length = 3 * (l.length / 4) + l.length % 4 := by
  induction l using base64_ref_decode.induct with
  | case1 a b c d rest ih =>
      conv_lhs => unfold base64_ref_decode
      simp only [List.length_cons, ih]
      omega
  | case2 a b c =>
      simp [base64_ref_decode]
  | case3 a b =>
      simp [base64_ref_decode]
  | case4 a =>
      simp [base64_ref_decode]
  | case5 =>
      simp [base64_ref_decode]

/-- Appending one symbol to a 4-aligned input appends exactly one
left-justified flushed byte to the reference decoding. -/
theorem base64_ref_decode_append_single (w : List Nat) (a : Nat)
    (hw : w.length % 4 = 0) :
    base64_ref_decode (w ++ [a]) =
      base64_ref_decode w ++ [(base64_value a).getD 0 * 4] := by
  induction w using base64_ref_decode.induct with
  | case1 x b c d rest ih =>
      have hr : rest.length % 4 = 0 := by
        simp [List.length_cons] at hw
        omega
      conv_rhs => unfold base64_ref_decode
      conv_lhs => unfold base64_ref_decode
      simp [ih hr]
  | case2 x b c => simp at hw
  | case3 x b => simp at hw
  | case4 x => simp at hw
  | case5 =>
      simp [base64_ref_decode]

/-- Claim C5: on an all-valid base64url input the slice reader decodes
without any failure to exactly the reference table-driven decoding;
for a length-4k input that is exactly 3k bytes, and for a length-4k+1
input it is 3k+1 bytes whose final byte is the leftover 6 bits of the
last symbol emitted left-justified (shifted up by two bits). -/
theorem alphabet_decoder_ref_roundtrip (input : List Nat)
    (hvalid : ∀ b ∈ input, (base64_value b).isSome) :
    Base64SliceReader.read (Base64SliceReader.new input) input.length =
      (.ok (base64_ref_decode input), ⟨input, input.length, 0, 0⟩) ∧
    (input.length % 4 = 0 →
      (base64_ref_decode input).length = 3 * (input.length / 4)) ∧
    (input.length % 4 = 1 →
      (base64_ref_decode input).length = 3 * (input.length / 4) + 1 ∧
      ∀ w a, input = w ++ [a] →
        base64_ref_decode input =
          base64_ref_decode w ++ [(base64_value a).getD 0 * 4]) := by
  refine ⟨?_, ?_, ?_⟩
  · have h := read_valid_ref input input.length 0 input.length
      (by omega) (by omega) (by simpa using hvalid)
      (by rw [List.drop_zero, base64_ref_decode_length]; omega)
    rw [List.drop_zero] at h
    exact h
  · intro h4
    rw [base64_ref_decode_length]
    omega
  · intro h4
    refine ⟨by rw [base64_ref_decode_length]; omega, ?_⟩
    intro w a hwa
    have hw : w.length % 4 = 0 := by
      subst hwa
      simp at h4
      omega
    rw [hwa]
    exact base64_ref_decode_append_single w a hw

/-- Witness for C5 on the sample header input of the repository's own
test (length 5 = 4 + 1). -/
theorem alphabet_decoder_ref_roundtrip_witness :
    Base64SliceReader.read (Base64SliceReader.new [68, 66, 65, 66, 77]) 5 =
      (.ok (base64_ref_decode [68, 66, 65, 66, 77]), ⟨[68, 66, 65, 66, 77], 5, 0, 0⟩) ∧
    (base64_ref_decode [68, 66, 65, 66, 77]).length = 3 * (5 / 4) + 1 := by
  have h := alphabet_decoder_ref_roundtrip [68, 66, 65, 66, 77] (by decide)
  exact ⟨by simpa using h.1, by simpa using (h.2.2 (by norm_num)).1⟩

/-- Evaluation of the read loop when it can take all requested bits
from the pending byte in one chunk. -/
theorem read_unsigned_loop_one_chunk (tb : Nat) (r : Base64BitReader)
    (c : Nat) (hc1 : 1 ≤ c) (hcb : c ≤ r.bits) :
    Base64BitReader.read_unsigned_loop tb r 0 c =
      (.ok (r.value / 2 ^ (r.bits - c) % 2 ^ c),
       { r with value := Base64BitReader.trim_queue r.value (r.bits - c),
                bits := r.bits - c }) := by
  obtain ⟨c1, rfl⟩ : ∃ c1, c = c1 + 1 := ⟨c - 1, by omega⟩
  unfold Base64BitReader.read_unsigned_loop
  rw [dif_neg (by omega)]
  simp only
  rw [show min (c1 + 1) r.bits = c1 + 1 by omega]
  rw [show c1 + 1 - (c1 + 1) = 0 by omega]
  unfold Base64BitReader.read_unsigned_loop
  simp

/-- Evaluation of the read loop when the pending byte is empty and one
freshly decoded byte covers the whole request. -/
theorem read_unsigned_loop_one_chunk_refill (tb : Nat) (r : Base64BitReader)
    (c b : Nat) (r1 : Base64BitReader)
    (hbits : r.bits = 0)
    (hb : Base64BitReader.read_decoded_byte r = (.ok b, r1))
    (hc1 : 1 ≤ c) (hc8 : c ≤ 8) :
    Base64BitReader.read_unsigned_loop tb r 0 c =
      (.ok (b / 2 ^ (8 - c) % 2 ^ c),
       { r1 with value := Base64BitReader.trim_queue b (8 - c), bits := 8 - c }) := by
  obtain ⟨c1, rfl⟩ : ∃ c1, c = c1 + 1 := ⟨c - 1, by omega⟩
  conv_lhs => unfold Base64BitReader.read_unsigned_loop
  rw [dif_pos hbits, hb]
  simp only
  rw [show min (c1 + 1) 8 = c1 + 1 by omega]
  rw [show c1 + 1 - (c1 + 1) = 0 by omega]
  unfold Base64BitReader.read_unsigned_loop
  simp

/-- Claim C7: with the next decoded byte being `b` and the bit reader
aligned, `read_unsigned(w)` followed by `read_unsigned(8-w)` yields
values `hi` and `lo` with `hi * 2^(8-w) + lo = b`, for every width
`w` between 1 and 8. -/
theorem read_unsigned_byte_split (r : Base64BitReader) (b : Nat)
    (r1 : Base64BitReader) (w : Nat)
    (hbits : r.bits = 0)
    (hb : Base64BitReader.read_decoded_byte r = (.ok b, r1))
    (hblt : b < 256) (hw1 : 1 ≤ w) (hw8 : w ≤ 8) :
    ∃ hi lo r2 r3,
      Base64BitReader.read_unsigned r 8 w = (.ok hi, r2) ∧
      Base64BitReader.read_unsigned r2 8 (8 - w) = (.ok lo, r3) ∧
      hi * 2 ^ (8 - w) + lo = b := by
  have hfirst : Base64BitReader.read_unsigned r 8 w =
      (.ok (b / 2 ^ (8 - w) % 2 ^ w),
       { r1 with value := Base64BitReader.trim_queue b (8 - w), bits := 8 - w }) := by
    unfold Base64BitReader.read_unsigned
    rw [if_neg (by omega)]
    exact read_unsigned_loop_one_chunk_refill 8 r w b r1 hbits hb hw1 hw8
  have hdivlt : b / 2 ^ (8 - w) < 2 ^ w := by
    apply Nat.div_lt_of_lt_mul
    calc b < 2 ^ 8 := hblt
    _ = 2 ^ (8 - w) * 2 ^ w := by rw [← pow_add]; congr 1; omega
  have hhi : b / 2 ^ (8 - w) % 2 ^ w = b / 2 ^ (8 - w) := Nat.mod_eq_of_lt hdivlt
  by_cases hw0 : w = 8
  · subst hw0
    refine ⟨b / 2 ^ (8 - 8) % 2 ^ 8, 0,
      { r1 with value := Base64BitReader.trim_queue b (8 - 8), bits := 8 - 8 },
      { r1 with value := Base64BitReader.trim_queue b (8 - 8), bits := 8 - 8 },
      hfirst, ?_, ?_⟩
    · unfold Base64BitReader.read_unsigned
      rw [if_neg (by omega)]
      rw [show (8 : Nat) - 8 = 0 from rfl]
      unfold Base64BitReader.read_unsigned_loop
      rfl
    · rw [hhi]
      simp
  · obtain ⟨r3, hsecond⟩ : ∃ r3, Base64BitReader.read_unsigned
        ({ r1 with value := Base64BitReader.trim_queue b (8 - w), bits := 8 - w }) 8 (8 - w) =
        (.ok (b % 2 ^ (8 - w)), r3) := ⟨_, by
      unfold Base64BitReader.read_unsigned
      rw [if_neg (by omega)]
      rw [read_unsigned_loop_one_chunk 8 _ (8 - w) (by omega) (by simp)]
      have hv : Base64BitReader.trim_queue b (8 - w) = b % 2 ^ (8 - w) := by
        unfold Base64BitReader.trim_queue
        rw [if_neg (by omega)]
      simp only [hv]
      rw [show (8 : Nat) - w - (8 - w) = 0 by omega]
      rw [show b % 2 ^ (8 - w) / 2 ^ 0 % 2 ^ (8 - w) = b % 2 ^ (8 - w) by
        simp [Nat.mod_mod]]⟩
    refine ⟨b / 2 ^ (8 - w) % 2 ^ w, b % 2 ^ (8 - w), _, r3, hfirst, hsecond, ?_⟩
    rw [hhi]
    rw [Nat.mul_comm (b / 2 ^ (8 - w)) (2 ^ (8 - w))]
    exact Nat.div_add_mod b (2 ^ (8 - w))

/-- Witness for C7: the decoded byte 171 split as 3 + 5 bits. -/
theorem read_unsigned_byte_split_witness :
    ∃ hi lo r2 r3,
      Base64BitReader.read_unsigned (Base64BitReader.new [113, 119]) 8 3 = (.ok hi, r2) ∧
      Base64BitReader.read_unsigned r2 8 (8 - 3) = (.ok lo, r3) ∧
      hi * 2 ^ (8 - 3) + lo = 171 :=
  read_unsigned_byte_split (Base64BitReader.new [113, 119]) 171
    ⟨⟨[113, 119], 2, 0, 4⟩, 0, 0⟩ 3 rfl
    (by simp [Base64BitReader.read_decoded_byte, Base64SliceReader.read,
      Base64SliceReader.fill, Base64SliceReader.new, Base64BitReader.new,
      base64_value, base64_decode_table])
    (by norm_num) (by norm_num) (by norm_num)

/-- Masking twice with a narrower width is masking once. -/
theorem trim_queue_trim_queue (v a b : Nat) (h : b ≤ a) :
    Base64BitReader.trim_queue (Base64BitReader.trim_queue v a) b =
      Base64BitReader.trim_queue v b := by
  unfold Base64BitReader.trim_queue
  by_cases hb : b = 0
  · simp [hb]
  · rw [if_neg hb, if_neg hb]
    by_cases ha : a = 0
    · omega
    · rw [if_neg ha]
      exact Nat.mod_mod_of_dvd v (pow_dvd_pow 2 h)

/-- One iteration of the read loop, pending byte empty, refill
succeeds. -/
theorem read_unsigned_loop_refill_ok (tb : Nat) (r : Base64BitReader)
    (vacc rem1 b : Nat) (r1 : Base64BitReader)
    (h0 : r.bits = 0) (hb : Base64BitReader.read_decoded_byte r = (.ok b, r1)) :
    Base64BitReader.read_unsigned_loop tb r vacc (rem1 + 1) =
      Base64BitReader.read_unsigned_loop tb
        { r1 with value := Base64BitReader.trim_queue b (8 - min (rem1 + 1) 8),
                  bits := 8 - min (rem1 + 1) 8 }
        (vacc * 2 ^ min (rem1 + 1) 8 % 2 ^ tb +
          b / 2 ^ (8 - min (rem1 + 1) 8) % 2 ^ min (rem1 + 1) 8)
        (rem1 + 1 - min (rem1 + 1) 8) := by
  conv_lhs => unfold Base64BitReader.read_unsigned_loop
  rw [dif_pos h0, hb]

/-- One iteration of the read loop, pending byte empty, refill fails. -/
theorem read_unsigned_loop_refill_err (tb : Nat) (r : Base64BitReader)
    (vacc rem1 : Nat) (e : IoErr) (r1 : Base64BitReader)
    (h0 : r.bits = 0) (hb : Base64BitReader.read_decoded_byte r = (.error e, r1)) :
    Base64BitReader.read_unsigned_loop tb r vacc (rem1 + 1) = (.error e, r1) := by
  conv_lhs => unfold Base64BitReader.read_unsigned_loop
  rw [dif_pos h0, hb]

/-- One iteration of the read loop on a non-empty pending byte. -/
theorem read_unsigned_loop_buf (tb : Nat) (r : Base64BitReader)
    (vacc rem1 : Nat) (h0 : r.bits ≠ 0) :
    Base64BitReader.read_unsigned_loop tb r vacc (rem1 + 1) =
      Base64BitReader.read_unsigned_loop tb
        { r with value := Base64BitReader.trim_queue r.value (r.bits - min (rem1 + 1) r.bits),
                 bits := r.bits - min (rem1 + 1) r.bits }
        (vacc * 2 ^ min (rem1 + 1) r.bits % 2 ^ tb +
          r.value / 2 ^ (r.bits - min (rem1 + 1) r.bits) % 2 ^ min (rem1 + 1) r.bits)
        (rem1 + 1 - min (rem1 + 1) r.bits) := by
  conv_lhs => unfold Base64BitReader.read_unsigned_loop
  rw [dif_neg h0]

/-- Seeding the read loop's accumulator shifts the final value by the
number of bits read, as long as the seed is small enough for the type
truncation never to fire. -/
theorem read_unsigned_loop_shift (tb : Nat) :
    ∀ (rem : Nat) (r : Base64BitReader) (vacc : Nat), rem ≤ tb →
    vacc < 2 ^ (tb - rem) →
    Base64BitReader.read_unsigned_loop tb r vacc rem =
      (match Base64BitReader.read_unsigned_loop tb r 0 rem with
       | (.ok v0, r') => (.ok (vacc * 2 ^ rem + v0), r')
       | (.error e, r') => (.error e, r')) := by
  intro rem
  induction rem using Nat.strong_induction_on with
  | _ rem ih =>
    intro r vacc hrem hvacc
    match rem with
    | 0 =>
        unfold Base64BitReader.read_unsigned_loop
        simp
    | rem1 + 1 =>
      have hpowsplit : ∀ (t : Nat), t ≤ rem1 + 1 →
          (2 : Nat) ^ (rem1 + 1) = 2 ^ t * 2 ^ (rem1 + 1 - t) := by
        intro t ht
        rw [← pow_add]
        congr 1
        omega
      by_cases h0 : r.bits = 0
      · rcases hb : Base64BitReader.read_decoded_byte r with ⟨res, r1⟩
        cases res with
        | error e =>
            rw [read_unsigned_loop_refill_err tb r vacc rem1 e r1 h0 hb,
              read_unsigned_loop_refill_err tb r 0 rem1 e r1 h0 hb]
        | ok b =>
            rw [read_unsigned_loop_refill_ok tb r vacc rem1 b r1 h0 hb,
              read_unsigned_loop_refill_ok tb r 0 rem1 b r1 h0 hb]
            set t := min (rem1 + 1) 8 with ht
            set chunk := b / 2 ^ (8 - t) % 2 ^ t with hchunk
            set r2 : Base64BitReader :=
              { r1 with value := Base64BitReader.trim_queue b (8 - t), bits := 8 - t }
            have ht1 : 1 ≤ t := by omega
            have htr : t ≤ rem1 + 1 := by omega
            have hchlt : chunk < 2 ^ t := Nat.mod_lt _ (Nat.pos_pow_of_pos _ (by norm_num))
            have hvs : vacc * 2 ^ t < 2 ^ (tb - (rem1 + 1 - t)) := by
              have h1 : vacc * 2 ^ t < 2 ^ (tb - (rem1 + 1)) * 2 ^ t := by
                have := Nat.pos_pow_of_pos t (show 0 < 2 by norm_num)
                exact Nat.mul_lt_mul_of_lt_of_le hvacc le_rfl this
              calc vacc * 2 ^ t < 2 ^ (tb - (rem1 + 1)) * 2 ^ t := h1
              _ = 2 ^ (tb - (rem1 + 1) + t) := by rw [pow_add]
              _ ≤ 2 ^ (tb - (rem1 + 1 - t)) := Nat.pow_le_pow_right (by norm_num) (by omega)
            have hmod : vacc * 2 ^ t % 2 ^ tb = vacc * 2 ^ t := by
              apply Nat.mod_eq_of_lt
              calc vacc * 2 ^ t < 2 ^ (tb - (rem1 + 1 - t)) := hvs
              _ ≤ 2 ^ tb := Nat.pow_le_pow_right (by norm_num) (by omega)
            have hseed : vacc * 2 ^ t % 2 ^ tb + chunk < 2 ^ (tb - (rem1 + 1 - t)) := by
              rw [hmod]
              have h2 : vacc * 2 ^ t + chunk < (vacc + 1) * 2 ^ t := by
                rw [Nat.add_mul, Nat.one_mul]
                omega
              have h3 : (vacc + 1) * 2 ^ t ≤ 2 ^ (tb - (rem1 + 1)) * 2 ^ t := by
                apply Nat.mul_le_mul_right
                omega
              calc vacc * 2 ^ t + chunk < (vacc + 1) * 2 ^ t := h2
              _ ≤ 2 ^ (tb - (rem1 + 1)) * 2 ^ t := h3
              _ = 2 ^ (tb - (rem1 + 1) + t) := by rw [pow_add]
              _ ≤ 2 ^ (tb - (rem1 + 1 - t)) := Nat.pow_le_pow_right (by norm_num) (by omega)
            have hchseed : (0 : Nat) * 2 ^ t % 2 ^ tb + chunk = chunk := by simp
            rw [hchseed]
            rw [ih (rem1 + 1 - t) (by omega) r2 (vacc * 2 ^ t % 2 ^ tb + chunk)
              (by omega) hseed]
            rw [ih (rem1 + 1 - t) (by omega) r2 chunk (by omega)
              (lt_of_lt_of_le hchlt (Nat.pow_le_pow_right (by norm_num) (by omega)))]
            rcases Base64BitReader.read_unsigned_loop tb r2 0 (rem1 + 1 - t) with ⟨res2, r3⟩
            cases res2 with
            | error e => rfl
            | ok v0 =>
                simp only
                congr 2
                rw [hmod]
                rw [hpowsplit t htr]
                ring
      · rw [read_unsigned_loop_buf tb r vacc rem1 h0,
          read_unsigned_loop_buf tb r 0 rem1 h0]
        set t := min (rem1 + 1) r.bits with ht
        set chunk := r.value / 2 ^ (r.bits - t) % 2 ^ t with hchunk
        set r2 : Base64BitReader :=
          { r with value := Base64BitReader.trim_queue r.value (r.bits - t),
                   bits := r.bits - t }
        have ht1 : 1 ≤ t := by omega
        have htr : t ≤ rem1 + 1 := by omega
        have hchlt : chunk < 2 ^ t := Nat.mod_lt _ (Nat.pos_pow_of_pos _ (by norm_num))
        have hvs : vacc * 2 ^ t < 2 ^ (tb - (rem1 + 1 - t)) := by
          have h1 : vacc * 2 ^ t < 2 ^ (tb - (rem1 + 1)) * 2 ^ t := by
            have := Nat.pos_pow_of_pos t (show 0 < 2 by norm_num)
            exact Nat.mul_lt_mul_of_lt_of_le hvacc le_rfl this
          calc vacc * 2 ^ t < 2 ^ (tb - (rem1 + 1)) * 2 ^ t := h1
          _ = 2 ^ (tb - (rem1 + 1) + t) := by rw [pow_add]
          _ ≤ 2 ^ (tb - (rem1 + 1 - t)) := Nat.pow_le_pow_right (by norm_num) (by omega)
        have hmod : vacc * 2 ^ t % 2 ^ tb = vacc * 2 ^ t := by
          apply Nat.mod_eq_of_lt
          calc vacc * 2 ^ t < 2 ^ (tb - (rem1 + 1 - t)) := hvs
          _ ≤ 2 ^ tb := Nat.pow_le_pow_right (by norm_num) (by omega)
        have hseed : vacc * 2 ^ t % 2 ^ tb + chunk < 2 ^ (tb - (rem1 + 1 - t)) := by
          rw [hmod]
          have h2 : vacc * 2 ^ t + chunk < (vacc + 1) * 2 ^ t := by
            rw [Nat.add_mul, Nat.one_mul]
            omega
          have h3 : (vacc + 1) * 2 ^ t ≤ 2 ^ (tb - (rem1 + 1)) * 2 ^ t := by
            apply Nat.mul_le_mul_right
            omega
          calc vacc * 2 ^ t + chunk < (vacc + 1) * 2 ^ t := h2
          _ ≤ 2 ^ (tb - (rem1 + 1)) * 2 ^ t := h3
          _ = 2 ^ (tb - (rem1 + 1) + t) := by rw [pow_add]
          _ ≤ 2 ^ (tb - (rem1 + 1 - t)) := Nat.pow_le_pow_right (by norm_num) (by omega)
        have hchseed : (0 : Nat) * 2 ^ t % 2 ^ tb + chunk = chunk := by simp
        rw [hchseed]
        rw [ih (rem1 + 1 - t) (by omega) r2 (vacc * 2 ^ t % 2 ^ tb + chunk)
          (by omega) hseed]
        rw [ih (rem1 + 1 - t) (by omega) r2 chunk (by omega)
          (lt_of_lt_of_le hchlt (Nat.pow_le_pow_right (by norm_num) (by omega)))]
        rcases Base64BitReader.read_unsigned_loop tb r2 0 (rem1 + 1 - t) with ⟨res2, r3⟩
        cases res2 with
        | error e => rfl
        | ok v0 =>
            simp only
            congr 2
            rw [hmod]
            rw [hpowsplit t htr]
            ring

/-- A successful unseeded read of `rem` bits is smaller than
`2 ^ rem`. -/
theorem read_unsigned_loop_lt (tb : Nat) :
    ∀ (rem : Nat) (r : Base64BitReader) (v : Nat) (r' : Base64BitReader),
    rem ≤ tb →
    Base64BitReader.read_unsigned_loop tb r 0 rem = (.ok v, r') → v < 2 ^ rem := by
  intro rem
  induction rem using Nat.strong_induction_on with
  | _ rem ih =>
    intro r v r' hrem hres
    match rem with
    | 0 =>
        unfold Base64BitReader.read_unsigned_loop at hres
        cases hres
        simp
    | rem1 + 1 =>
      by_cases h0 : r.bits = 0
      · rcases hb : Base64BitReader.read_decoded_byte r with ⟨res, r1⟩
        cases res with
        | error e =>
            rw [read_unsigned_loop_refill_err tb r 0 rem1 e r1 h0 hb] at hres
            simp at hres
        | ok b =>
            rw [read_unsigned_loop_refill_ok tb r 0 rem1 b r1 h0 hb] at hres
            set t := min (rem1 + 1) 8 with ht
            set chunk := b / 2 ^ (8 - t) % 2 ^ t with hchunk
            have ht1 : 1 ≤ t := by omega
            have hchlt : chunk < 2 ^ t := Nat.mod_lt _ (Nat.pos_pow_of_pos _ (by norm_num))
            rw [show (0 : Nat) * 2 ^ t % 2 ^ tb + chunk = chunk by simp] at hres
            rw [read_unsigned_loop_shift tb (rem1 + 1 - t) _ chunk (by omega)
              (lt_of_lt_of_le hchlt (Nat.pow_le_pow_right (by norm_num) (by omega)))] at hres
            rcases hr0 : Base64BitReader.read_unsigned_loop tb
                { r1 with value := Base64BitReader.trim_queue b (8 - t), bits := 8 - t }
                0 (rem1 + 1 - t) with ⟨res2, r3⟩
            rw [hr0] at hres
            cases res2 with
            | error e => simp at hres
            | ok v0 =>
                simp only at hres
                have hv0 := ih (rem1 + 1 - t) (by omega) _ v0 r3 (by omega) hr0
                cases hres
                calc chunk * 2 ^ (rem1 + 1 - t) + v0
                    < (chunk + 1) * 2 ^ (rem1 + 1 - t) := by
                      rw [Nat.add_mul, Nat.one_mul]; omega
                _ ≤ 2 ^ t * 2 ^ (rem1 + 1 - t) := by
                      apply Nat.mul_le_mul_right; omega
                _ = 2 ^ (rem1 + 1) := by rw [← pow_add]; congr 1; omega
      · rw [read_unsigned_loop_buf tb r 0 rem1 h0] at hres
        set t := min (rem1 + 1) r.bits with ht
        set chunk := r.value / 2 ^ (r.bits - t) % 2 ^ t with hchunk
        have ht1 : 1 ≤ t := by omega
        have hchlt : chunk < 2 ^ t := Nat.mod_lt _ (Nat.pos_pow_of_pos _ (by norm_num))
        rw [show (0 : Nat) * 2 ^ t % 2 ^ tb + chunk = chunk by simp] at hres
        rw [read_unsigned_loop_shift tb (rem1 + 1 - t) _ chunk (by omega)
          (lt_of_lt_of_le hchlt (Nat.pow_le_pow_right (by norm_num) (by omega)))] at hres
        rcases hr0 : Base64BitReader.read_unsigned_loop tb
            { r with value := Base64BitReader.trim_queue r.value (r.bits - t),
                     bits := r.bits - t }
            0 (rem1 + 1 - t) with ⟨res2, r3⟩
        rw [hr0] at hres
        cases res2 with
        | error e => simp at hres
        | ok v0 =>
            simp only at hres
            have hv0 := ih (rem1 + 1 - t) (by omega) _ v0 r3 (by omega) hr0
            cases hres
            calc chunk * 2 ^ (rem1 + 1 - t) + v0
                < (chunk + 1) * 2 ^ (rem1 + 1 - t) := by
                  rw [Nat.add_mul, Nat.one_mul]; omega
            _ ≤ 2 ^ t * 2 ^ (rem1 + 1 - t) := by
                  apply Nat.mul_le_mul_right; omega
            _ = 2 ^ (rem1 + 1) := by rw [← pow_add]; congr 1; omega

/-- Bit-slicing: one `n + t2`-bit chunk taken from position
`b8 - (n + t2)` splits into an `n`-bit chunk and a `t2`-bit chunk. -/
theorem chunk_split (val b8 n t2 : Nat) (h : n + t2 ≤ b8) :
    val / 2 ^ (b8 - (n + t2)) % 2 ^ (n + t2) =
      val / 2 ^ (b8 - n) % 2 ^ n * 2 ^ t2 +
        val % 2 ^ (b8 - n) / 2 ^ (b8 - (n + t2)) % 2 ^ t2 := by
  set K := (2 : Nat) ^ (b8 - (n + t2)) with hK
  set a := val / 2 ^ (b8 - n) with ha
  set c := val % 2 ^ (b8 - n) with hc
  have hKpos : 0 < K := Nat.pos_pow_of_pos _ (by norm_num)
  have hsplit : (2 : Nat) ^ (b8 - n) = K * 2 ^ t2 := by
    rw [hK, ← pow_add]
    congr 1
    omega
  have hclt : c < 2 ^ (b8 - n) := Nat.mod_lt _ (Nat.pos_pow_of_pos _ (by norm_num))
  have hcdiv : c / K < 2 ^ t2 := by
    apply Nat.div_lt_of_lt_mul
    rw [← hsplit]
    exact hclt
  have hval : val = c + K * (a * 2 ^ t2) := by
    have hdm := Nat.div_add_mod val (2 ^ (b8 - n))
    rw [← ha, ← hc, hsplit] at hdm
    rw [← hdm]
    ring
  have hstep1 : val / K = a * 2 ^ t2 + c / K := by
    conv_lhs => rw [hval]
    rw [Nat.add_mul_div_left c (a * 2 ^ t2) hKpos]
    omega
  have hcmodK : c / K % 2 ^ t2 = c / K := Nat.mod_eq_of_lt hcdiv
  rw [hstep1, hcmodK]
  have hmul : a * 2 ^ t2 % 2 ^ (n + t2) = a % 2 ^ n * 2 ^ t2 := by
    rw [pow_add]
    exact Nat.mul_mod_mul_right (2 ^ t2) a (2 ^ n)
  have hamod : a % 2 ^ n < 2 ^ n := Nat.mod_lt _ (Nat.pos_pow_of_pos _ (by norm_num))
  have hbound : a % 2 ^ n * 2 ^ t2 + c / K < 2 ^ (n + t2) := by
    calc a % 2 ^ n * 2 ^ t2 + c / K
        < a % 2 ^ n * 2 ^ t2 + 2 ^ t2 := by omega
    _ = (a % 2 ^ n + 1) * 2 ^ t2 := by ring
    _ ≤ 2 ^ n * 2 ^ t2 := by
        apply Nat.mul_le_mul_right
        omega
    _ = 2 ^ (n + t2) := by rw [← pow_add]
  calc (a * 2 ^ t2 + c / K) % 2 ^ (n + t2)
      = (a * 2 ^ t2 % 2 ^ (n + t2) + c / K % 2 ^ (n + t2)) % 2 ^ (n + t2) := by
        rw [Nat.add_mod]
  _ = (a % 2 ^ n * 2 ^ t2 + c / K) % 2 ^ (n + t2) := by
        rw [hmul, Nat.mod_eq_of_lt (lt_of_lt_of_le hcdiv
          (Nat.pow_le_pow_right (by norm_num) (by omega)))]
  _ = a % 2 ^ n * 2 ^ t2 + c / K := Nat.mod_eq_of_lt hbound

/-- Masking with width zero gives zero. -/
theorem trim_queue_zero (v : Nat) : Base64BitReader.trim_queue v 0 = 0 := by
  unfold Base64BitReader.trim_queue
  simp

/-- Masking with a nonzero width is the modulus. -/
theorem trim_queue_pos (v w : Nat) (h : w ≠ 0) :
    Base64BitReader.trim_queue v w = v % 2 ^ w := by
  unfold Base64BitReader.trim_queue
  rw [if_neg h]

/-- Reading `n + m` bits is reading `n` bits and then `m` bits, the
two values recombined by shifting, with identical error behaviour and
final states. -/
theorem read_unsigned_loop_split (tb : Nat) :
    ∀ (n m : Nat) (r : Base64BitReader), n + m ≤ tb →
    Base64BitReader.read_unsigned_loop tb r 0 (n + m) =
      (match Base64BitReader.read_unsigned_loop tb r 0 n with
       | (.ok v1, r1) =>
         (match Base64BitReader.read_unsigned_loop tb r1 0 m with
          | (.ok v2, r2) => (.ok (v1 * 2 ^ m + v2), r2)
          | (.error e, r2) => (.error e, r2))
       | (.error e, r1) => (.error e, r1)) := by
  intro n
  induction n using Nat.strong_induction_on with
  | _ n ihn =>
    intro m r hnm
    match n, ihn with
    | 0, _ =>
      rw [Nat.zero_add]
      conv_rhs => rw [show Base64BitReader.read_unsigned_loop tb r 0 0 = (.ok 0, r) from by
        unfold Base64BitReader.read_unsigned_loop
        rfl]
      rcases hm : Base64BitReader.read_unsigned_loop tb r 0 m with ⟨res, r2⟩
      cases res <;> simp [hm]
    | n1 + 1, ihn =>
      by_cases hm : m = 0
      · subst hm
        rcases hn : Base64BitReader.read_unsigned_loop tb r 0 (n1 + 1) with ⟨res, r1⟩
        cases res with
        | error e => simp [hn]
        | ok v1 =>
            simp only [hn]
            conv_rhs => rw [show Base64BitReader.read_unsigned_loop tb r1 0 0 = (.ok 0, r1) from by
              unfold Base64BitReader.read_unsigned_loop
              rfl]
            simp
      · obtain ⟨m1, rfl⟩ : ∃ m1, m = m1 + 1 := ⟨m - 1, by omega⟩
        by_cases h0 : r.bits = 0
        · rcases hb : Base64BitReader.read_decoded_byte r with ⟨res, rb⟩
          cases res with
          | error e =>
              rw [show n1 + 1 + (m1 + 1) = n1 + m1 + 1 + 1 by omega,
                read_unsigned_loop_refill_err tb r 0 (n1 + m1 + 1) e rb h0 hb,
                read_unsigned_loop_refill_err tb r 0 n1 e rb h0 hb]
          | ok b =>
            by_cases hA : 8 ≤ n1 + 1
            · -- the whole fresh byte belongs to the first read
              rw [show n1 + 1 + (m1 + 1) = n1 + m1 + 1 + 1 by omega,
                read_unsigned_loop_refill_ok tb r 0 (n1 + m1 + 1) b rb h0 hb,
                read_unsigned_loop_refill_ok tb r 0 n1 b rb h0 hb]
              rw [show min (n1 + m1 + 1 + 1) 8 = 8 by omega,
                show min (n1 + 1) 8 = 8 by omega]
              rw [show (8 : Nat) - 8 = 0 from rfl, trim_queue_zero]
              set chunk : Nat := b / 2 ^ 0 % 2 ^ 8 with hchunk
              have hch : chunk < 2 ^ 8 := Nat.mod_lt _ (by norm_num)
              rw [show (0 : Nat) * 2 ^ 8 % 2 ^ tb + chunk = chunk by simp]
              set r2 : Base64BitReader := { rb with value := 0, bits := 0 } with hr2
              rw [show n1 + m1 + 1 + 1 - 8 = (n1 + 1 - 8) + (m1 + 1) by omega]
              rw [read_unsigned_loop_shift tb ((n1 + 1 - 8) + (m1 + 1)) r2 chunk (by omega)
                (lt_of_lt_of_le hch (Nat.pow_le_pow_right (by norm_num) (by omega)))]
              rw [read_unsigned_loop_shift tb (n1 + 1 - 8) r2 chunk (by omega)
                (lt_of_lt_of_le hch (Nat.pow_le_pow_right (by norm_num) (by omega)))]
              rw [ihn (n1 + 1 - 8) (by omega) (m1 + 1) r2 (by omega)]
              rcases h1 : Base64BitReader.read_unsigned_loop tb r2 0 (n1 + 1 - 8) with ⟨res1, r3⟩
              cases res1 with
              | error e => rfl
              | ok v1 =>
                  simp only
                  rcases h2 : Base64BitReader.read_unsigned_loop tb r3 0 (m1 + 1) with ⟨res2, r4⟩
                  cases res2 with
                  | error e => rfl
                  | ok v2 =>
                      simp only
                      congr 2
                      rw [show (2 : Nat) ^ (n1 + 1 - 8 + (m1 + 1))
                            = 2 ^ (n1 + 1 - 8) * 2 ^ (m1 + 1) from by rw [← pow_add]]
                      ring
            · -- the fresh byte spans the boundary between the reads
              have hn8 : n1 + 1 < 8 := by omega
              set tc := min (n1 + 1 + (m1 + 1)) 8 with htc
              set t2 := tc - (n1 + 1) with ht2
              have htc1 : n1 + 1 < tc := by omega
              have htc8 : tc ≤ 8 := by omega
              have ht21 : 1 ≤ t2 := by omega
              rw [show n1 + 1 + (m1 + 1) = n1 + m1 + 1 + 1 by omega,
                read_unsigned_loop_refill_ok tb r 0 (n1 + m1 + 1) b rb h0 hb,
                read_unsigned_loop_refill_ok tb r 0 n1 b rb h0 hb]
              rw [show min (n1 + m1 + 1 + 1) 8 = tc by omega,
                show min (n1 + 1) 8 = n1 + 1 by omega]
              set chunkc : Nat := b / 2 ^ (8 - tc) % 2 ^ tc with hchunkc
              set chunk1 : Nat := b / 2 ^ (8 - (n1 + 1)) % 2 ^ (n1 + 1) with hchunk1
              rw [show (0 : Nat) * 2 ^ tc % 2 ^ tb + chunkc = chunkc by simp]
              rw [show (0 : Nat) * 2 ^ (n1 + 1) % 2 ^ tb + chunk1 = chunk1 by simp]
              rw [show n1 + 1 - (n1 + 1) = 0 by omega]
              conv_rhs =>
                rw [show Base64BitReader.read_unsigned_loop tb
                    { rb with value := Base64BitReader.trim_queue b (8 - (n1 + 1)),
                              bits := 8 - (n1 + 1) } chunk1 0 =
                  (.ok chunk1,
                   { rb with value := Base64BitReader.trim_queue b (8 - (n1 + 1)),
                             bits := 8 - (n1 + 1) }) from by
                  unfold Base64BitReader.read_unsigned_loop
                  rfl]
              simp only
              rw [read_unsigned_loop_buf tb
                { rb with value := Base64BitReader.trim_queue b (8 - (n1 + 1)),
                          bits := 8 - (n1 + 1) } 0 m1 (by simp; omega)]
              simp only
              rw [show min (m1 + 1) (8 - (n1 + 1)) = t2 by omega]
              rw [show (8 : Nat) - (n1 + 1) - t2 = 8 - tc by omega]
              rw [trim_queue_trim_queue b (8 - (n1 + 1)) (8 - tc) (by omega)]
              rw [trim_queue_pos b (8 - (n1 + 1)) (by omega)]
              set chunk2 : Nat := b % 2 ^ (8 - (n1 + 1)) / 2 ^ (8 - tc) % 2 ^ t2 with hchunk2
              rw [show (0 : Nat) * 2 ^ t2 % 2 ^ tb + chunk2 = chunk2 by simp]
              have hstates : (n1 + m1 + 1 + 1 - tc) = (m1 + 1 - t2) := by omega
              rw [hstates]
              have hch2 : chunk2 < 2 ^ t2 := Nat.mod_lt _ (Nat.pos_pow_of_pos _ (by norm_num))
              have hchc : chunkc < 2 ^ tc := Nat.mod_lt _ (Nat.pos_pow_of_pos _ (by norm_num))
              rw [read_unsigned_loop_shift tb (m1 + 1 - t2) _ chunkc (by omega)
                (lt_of_lt_of_le hchc (Nat.pow_le_pow_right (by norm_num) (by omega)))]
              rw [read_unsigned_loop_shift tb (m1 + 1 - t2) _ chunk2 (by omega)
                (lt_of_lt_of_le hch2 (Nat.pow_le_pow_right (by norm_num) (by omega)))]
              rcases h1 : Base64BitReader.read_unsigned_loop tb
                  { rb with value := Base64BitReader.trim_queue b (8 - tc), bits := 8 - tc }
                  0 (m1 + 1 - t2) with ⟨res1, r3⟩
              cases res1 with
              | error e => rfl
              | ok w =>
                  simp only
                  congr 2
                  have hcs : chunkc = chunk1 * 2 ^ t2 + chunk2 := by
                    rw [hchunkc, hchunk1, hchunk2]
                    rw [show tc = (n1 + 1) + t2 by omega]
                    exact chunk_split b 8 (n1 + 1) t2 (by omega)
                  rw [hcs]
                  rw [show (2 : Nat) ^ (m1 + 1) = 2 ^ t2 * 2 ^ (m1 + 1 - t2) from by
                    rw [← pow_add]; congr 1; omega]
                  ring
        · -- pending buffered bits
          by_cases hA : r.bits ≤ n1 + 1
          · -- the whole pending chunk belongs to the first read
            rw [show n1 + 1 + (m1 + 1) = n1 + m1 + 1 + 1 by omega,
              read_unsigned_loop_buf tb r 0 (n1 + m1 + 1) h0,
              read_unsigned_loop_buf tb r 0 n1 h0]
            rw [show min (n1 + m1 + 1 + 1) r.bits = r.bits by omega,
              show min (n1 + 1) r.bits = r.bits by omega]
            rw [show r.bits - r.bits = 0 by omega, trim_queue_zero]
            set chunk : Nat := r.value / 2 ^ 0 % 2 ^ r.bits with hchunk
            have hch : chunk < 2 ^ r.bits := Nat.mod_lt _ (Nat.pos_pow_of_pos _ (by norm_num))
            rw [show (0 : Nat) * 2 ^ r.bits % 2 ^ tb + chunk = chunk by simp]
            set r2 : Base64BitReader := { r with value := 0, bits := 0 } with hr2
            rw [show n1 + m1 + 1 + 1 - r.bits = (n1 + 1 - r.bits) + (m1 + 1) by omega]
            rw [read_unsigned_loop_shift tb ((n1 + 1 - r.bits) + (m1 + 1)) r2 chunk (by omega)
              (lt_of_lt_of_le hch (Nat.pow_le_pow_right (by norm_num) (by omega)))]
            rw [read_unsigned_loop_shift tb (n1 + 1 - r.bits) r2 chunk (by omega)
              (lt_of_lt_of_le hch (Nat.pow_le_pow_right (by norm_num) (by omega)))]
            rw [ihn (n1 + 1 - r.bits) (by omega) (m1 + 1) r2 (by omega)]
            rcases h1 : Base64BitReader.read_unsigned_loop tb r2 0 (n1 + 1 - r.bits) with ⟨res1, r3⟩
            cases res1 with
            | error e => rfl
            | ok v1 =>
                simp only
                rcases h2 : Base64BitReader.read_unsigned_loop tb r3 0 (m1 + 1) with ⟨res2, r4⟩
                cases res2 with
                | error e => rfl
                | ok v2 =>
                    simp only
                    congr 2
                    rw [show (2 : Nat) ^ (n1 + 1 - r.bits + (m1 + 1)) =
                        2 ^ (n1 + 1 - r.bits) * 2 ^ (m1 + 1) from by rw [← pow_add]]
                    ring
          · -- the pending chunk spans the boundary between the reads
            have hn8 : n1 + 1 < r.bits := by omega
            set tc := min (n1 + 1 + (m1 + 1)) r.bits with htc
            set t2 := tc - (n1 + 1) with ht2
            have htc1 : n1 + 1 < tc := by omega
            have ht21 : 1 ≤ t2 := by omega
            rw [show n1 + 1 + (m1 + 1) = n1 + m1 + 1 + 1 by omega,
              read_unsigned_loop_buf tb r 0 (n1 + m1 + 1) h0,
              read_unsigned_loop_buf tb r 0 n1 h0]
            rw [show min (n1 + m1 + 1 + 1) r.bits = tc by omega,
              show min (n1 + 1) r.bits = n1 + 1 by omega]
            set chunkc : Nat := r.value / 2 ^ (r.bits - tc) % 2 ^ tc with hchunkc
            set chunk1 : Nat := r.value / 2 ^ (r.bits - (n1 + 1)) % 2 ^ (n1 + 1) with hchunk1
            rw [show (0 : Nat) * 2 ^ tc % 2 ^ tb + chunkc = chunkc by simp]
            rw [show (0 : Nat) * 2 ^ (n1 + 1) % 2 ^ tb + chunk1 = chunk1 by simp]
            rw [show n1 + 1 - (n1 + 1) = 0 by omega]
            conv_rhs =>
              rw [show Base64BitReader.read_unsigned_loop tb
                  { r with value := Base64BitReader.trim_queue r.value (r.bits - (n1 + 1)),
                           bits := r.bits - (n1 + 1) } chunk1 0 =
                (.ok chunk1,
                 { r with value := Base64BitReader.trim_queue r.value (r.bits - (n1 + 1)),
                          bits := r.bits - (n1 + 1) }) from by
                unfold Base64BitReader.read_unsigned_loop
                rfl]
            simp only
            rw [read_unsigned_loop_buf tb
              { r with value := Base64BitReader.trim_queue r.value (r.bits - (n1 + 1)),
                       bits := r.bits - (n1 + 1) } 0 m1 (by simp; omega)]
            simp only
            rw [show min (m1 + 1) (r.bits - (n1 + 1)) = t2 by omega]
            rw [show r.bits - (n1 + 1) - t2 = r.bits - tc by omega]
            rw [trim_queue_trim_queue r.value (r.bits - (n1 + 1)) (r.bits - tc) (by omega)]
            rw [trim_queue_pos r.value (r.bits - (n1 + 1)) (by omega)]
            set chunk2 : Nat :=
              r.value % 2 ^ (r.bits - (n1 + 1)) / 2 ^ (r.bits - tc) % 2 ^ t2 with hchunk2
            rw [show (0 : Nat) * 2 ^ t2 % 2 ^ tb + chunk2 = chunk2 by simp]
            have hstates : (n1 + m1 + 1 + 1 - tc) = (m1 + 1 - t2) := by omega
            rw [hstates]
            have hch2 : chunk2 < 2 ^ t2 := Nat.mod_lt _ (Nat.pos_pow_of_pos _ (by norm_num))
            have hchc : chunkc < 2 ^ tc := Nat.mod_lt _ (Nat.pos_pow_of_pos _ (by norm_num))
            rw [read_unsigned_loop_shift tb (m1 + 1 - t2) _ chunkc (by omega)
              (lt_of_lt_of_le hchc (Nat.pow_le_pow_right (by norm_num) (by omega)))]
            rw [read_unsigned_loop_shift tb (m1 + 1 - t2) _ chunk2 (by omega)
              (lt_of_lt_of_le hch2 (Nat.pow_le_pow_right (by norm_num) (by omega)))]
            rcases h1 : Base64BitReader.read_unsigned_loop tb
                { r with value := Base64BitReader.trim_queue r.value (r.bits - tc),
                         bits := r.bits - tc }
                0 (m1 + 1 - t2) with ⟨res1, r3⟩
            cases res1 with
            | error e => rfl
            | ok w =>
                simp only
                congr 2
                have hcs : chunkc = chunk1 * 2 ^ t2 + chunk2 := by
                  rw [hchunkc, hchunk1, hchunk2]
                  rw [show tc = (n1 + 1) + t2 by omega]
                  exact chunk_split r.value r.bits (n1 + 1) t2 (by omega)
                rw [hcs]
                rw [show (2 : Nat) ^ (m1 + 1) = 2 ^ t2 * 2 ^ (m1 + 1 - t2) from by
                  rw [← pow_add]; congr 1; omega]
                ring

/-- `read_decoded_byte` only advances the inner slice reader; the
pending byte and bit count are untouched. -/
theorem read_decoded_byte_fields (r : Base64BitReader)
    (res : Except IoErr Nat) (r1 : Base64BitReader)
    (h : Base64BitReader.read_decoded_byte r = (res, r1)) :
    r1.value = r.value ∧ r1.bits = r.bits := by
  unfold Base64BitReader.read_decoded_byte at h
  rcases hr : Base64SliceReader.read r.reader 1 with ⟨res2, sr⟩
  rw [hr] at h
  cases res2 with
  | error e =>
      cases h
      exact ⟨rfl, rfl⟩
  | ok l =>
      match l, h with
      | [], h => cases h; exact ⟨rfl, rfl⟩
      | [b], h => cases h; exact ⟨rfl, rfl⟩
      | b :: c :: t, h => cases h; exact ⟨rfl, rfl⟩

/-- On an aligned reader with an empty pending byte, the byte-dropping
phase of `skip` traverses the decoded stream exactly as the read loop
does: same final state, same errors. -/
theorem skip_loop_agree (tb : Nat) :
    ∀ (n : Nat) (r : Base64BitReader) (vacc : Nat),
    r.value = 0 → r.bits = 0 →
    Base64BitReader.skip_loop r n =
      (match Base64BitReader.read_unsigned_loop tb r vacc n with
       | (.ok _, r') => (.ok (), r')
       | (.error e, r') => (.error e, r')) := by
  intro n
  induction n using Nat.strong_induction_on with
  | _ n ih =>
    intro r vacc hv h0
    match n with
    | 0 =>
        unfold Base64BitReader.skip_loop
        unfold Base64BitReader.read_unsigned_loop
        simp
    | n1 + 1 =>
      rcases hb : Base64BitReader.read_decoded_byte r with ⟨res, r1⟩
      obtain ⟨hv1, hb1⟩ := read_decoded_byte_fields r res r1 hb
      by_cases h8 : n1 + 1 ≥ 8
      · cases res with
        | error e =>
            unfold Base64BitReader.skip_loop
            rw [dif_pos h8, hb]
            rw [read_unsigned_loop_refill_err tb r vacc n1 e r1 h0 hb]
        | ok b =>
            conv_lhs => unfold Base64BitReader.skip_loop
            rw [dif_pos h8, hb]
            simp only
            rw [read_unsigned_loop_refill_ok tb r vacc n1 b r1 h0 hb]
            rw [show min (n1 + 1) 8 = 8 by omega]
            rw [show (8 : Nat) - 8 = 0 from rfl, trim_queue_zero]
            have hr1 : ({ r1 with value := 0, bits := 0 } : Base64BitReader) = r1 := by
              cases r1
              simp at hv1 hb1 ⊢
              exact ⟨by rw [hv1, hv], by rw [hb1, h0]⟩
            rw [hr1]
            exact ih (n1 + 1 - 8) (by omega) r1 _ (by rw [hv1, hv]) (by rw [hb1, h0])
      · cases res with
        | error e =>
            unfold Base64BitReader.skip_loop
            rw [dif_neg h8, if_pos (by omega : n1 + 1 > 0), hb]
            rw [read_unsigned_loop_refill_err tb r vacc n1 e r1 h0 hb]
        | ok b =>
            conv_lhs => unfold Base64BitReader.skip_loop
            rw [dif_neg h8, if_pos (by omega : n1 + 1 > 0), hb]
            simp only
            rw [read_unsigned_loop_refill_ok tb r vacc n1 b r1 h0 hb]
            rw [show min (n1 + 1) 8 = n1 + 1 by omega]
            rw [show n1 + 1 - (n1 + 1) = 0 by omega]
            conv_rhs =>
              rw [show Base64BitReader.read_unsigned_loop tb
                  { r1 with value := Base64BitReader.trim_queue b (8 - (n1 + 1)),
                            bits := 8 - (n1 + 1) }
                  (vacc * 2 ^ (n1 + 1) % 2 ^ tb +
                    b / 2 ^ (8 - (n1 + 1)) % 2 ^ (n1 + 1)) 0 =
                (.ok (vacc * 2 ^ (n1 + 1) % 2 ^ tb +
                    b / 2 ^ (8 - (n1 + 1)) % 2 ^ (n1 + 1)),
                 { r1 with value := Base64BitReader.trim_queue b (8 - (n1 + 1)),
                           bits := 8 - (n1 + 1) }) from by
                unfold Base64BitReader.read_unsigned_loop
                rfl]

/-- `skip(n)` traverses the bit stream exactly as an `n`-bit
`read_unsigned` does, discarding the value: same final state, same
errors.  `tb` is any type size at least `n`. -/
theorem skip_agree (tb n : Nat) (r : Base64BitReader)
    (hval : r.value < 2 ^ r.bits) (hn : n ≤ tb) :
    Base64BitReader.skip r n =
      (match Base64BitReader.read_unsigned r tb n with
       | (.ok _, r') => (.ok (), r')
       | (.error e, r') => (.error e, r')) := by
  unfold Base64BitReader.read_unsigned
  rw [if_neg (by omega)]
  match n with
  | 0 =>
      unfold Base64BitReader.skip
      rw [if_pos rfl]
      unfold Base64BitReader.read_unsigned_loop
      rfl
  | n1 + 1 =>
    by_cases h0 : r.bits = 0
    · unfold Base64BitReader.skip
      rw [if_neg (by omega), if_neg (by omega)]
      have hv0 : r.value = 0 := by
        rw [h0] at hval
        simpa using hval
      exact skip_loop_agree tb (n1 + 1) r 0 hv0 h0
    · unfold Base64BitReader.skip
      rw [if_neg (by omega), if_pos (by omega : r.bits > 0)]
      rw [read_unsigned_loop_buf tb r 0 n1 h0]
      by_cases hA : n1 + 1 ≤ r.bits
      · rw [show min (n1 + 1) r.bits = n1 + 1 by omega]
        rw [show n1 + 1 - (n1 + 1) = 0 by omega]
        conv_lhs => unfold Base64BitReader.skip_loop
        rw [dif_neg (by omega), if_neg (by omega)]
        conv_rhs =>
          rw [show Base64BitReader.read_unsigned_loop tb
              { r with value := Base64BitReader.trim_queue r.value (r.bits - (n1 + 1)),
                       bits := r.bits - (n1 + 1) }
              (0 * 2 ^ (n1 + 1) % 2 ^ tb +
                r.value / 2 ^ (r.bits - (n1 + 1)) % 2 ^ (n1 + 1)) 0 =
            (.ok (0 * 2 ^ (n1 + 1) % 2 ^ tb +
                r.value / 2 ^ (r.bits - (n1 + 1)) % 2 ^ (n1 + 1)),
             { r with value := Base64BitReader.trim_queue r.value (r.bits - (n1 + 1)),
                      bits := r.bits - (n1 + 1) }) from by
            unfold Base64BitReader.read_unsigned_loop
            rfl]
      · rw [show min (n1 + 1) r.bits = r.bits by omega]
        dsimp only
        rw [show r.bits - r.bits = 0 by omega, trim_queue_zero]
        exact skip_loop_agree tb (n1 + 1 - r.bits)
          { r with value := 0, bits := 0 } _ rfl rfl

/-- Claim C8: `skip(n)` followed by `read_unsigned(m)` yields exactly
`read_unsigned(n+m)` with its high `n` bits discarded (the value
reduced modulo `2^m`), with the same final state, for every reader
state satisfying the pending-byte invariant and every `n`, `m` within
the target type's capacity. -/
theorem skip_then_read_unsigned (tb n m : Nat) (r : Base64BitReader)
    (hval : r.value < 2 ^ r.bits) (hnm : n + m ≤ tb)
    (v : Nat) (rf : Base64BitReader)
    (hcomb : Base64BitReader.read_unsigned r tb (n + m) = (.ok v, rf)) :
    ∃ r1, Base64BitReader.skip r n = (.ok (), r1) ∧
      Base64BitReader.read_unsigned r1 tb m = (.ok (v % 2 ^ m), rf) := by
  unfold Base64BitReader.read_unsigned at hcomb
  rw [if_neg (by omega)] at hcomb
  rw [read_unsigned_loop_split tb n m r hnm] at hcomb
  rcases h1 : Base64BitReader.read_unsigned_loop tb r 0 n with ⟨res1, r1⟩
  rw [h1] at hcomb
  cases res1 with
  | error e => simp at hcomb
  | ok v1 =>
    simp only at hcomb
    rcases h2 : Base64BitReader.read_unsigned_loop tb r1 0 m with ⟨res2, r2⟩
    rw [h2] at hcomb
    cases res2 with
    | error e => simp at hcomb
    | ok v2 =>
      simp only at hcomb
      cases hcomb
      refine ⟨r1, ?_, ?_⟩
      · rw [skip_agree tb n r hval (by omega)]
        unfold Base64BitReader.read_unsigned
        rw [if_neg (by omega), h1]
      · have hv2 : v2 < 2 ^ m := read_unsigned_loop_lt tb m r1 v2 rf (by omega) h2
        unfold Base64BitReader.read_unsigned
        rw [if_neg (by omega), h2]
        congr 1
        rw [Nat.add_comm, Nat.add_mul_mod_self_right, Nat.mod_eq_of_lt hv2]

/-- Witness for C8 on a concrete five-symbol stream: skipping 11 bits
then reading 9 equals the 20-bit read reduced modulo `2^9`. -/
theorem skip_then_read_unsigned_witness :
    ∃ rf r1,
      Base64BitReader.read_unsigned (Base64BitReader.new [68, 66, 65, 66, 77]) 32 (11 + 9) =
        (.ok 49408, rf) ∧
      Base64BitReader.skip (Base64BitReader.new [68, 66, 65, 66, 77]) 11 = (.ok (), r1) ∧
      Base64BitReader.read_unsigned r1 32 9 = (.ok (49408 % 2 ^ 9), rf) := by
  obtain ⟨rf, hc⟩ : ∃ rf,
      Base64BitReader.read_unsigned (Base64BitReader.new [68, 66, 65, 66, 77]) 32 (11 + 9) =
        (.ok 49408, rf) := ⟨_, by
    simp [Base64BitReader.read_unsigned, Base64BitReader.read_unsigned_loop,
      Base64BitReader.read_decoded_byte, Base64SliceReader.read,
      Base64SliceReader.fill, Base64SliceReader.new, Base64BitReader.new,
      Base64BitReader.trim_queue, base64_value, base64_decode_table]
    rfl⟩
  obtain ⟨r1, h1, h2⟩ := skip_then_read_unsigned 32 11 9
    (Base64BitReader.new [68, 66, 65, 66, 77])
    (by simp [Base64BitReader.new, Base64SliceReader.new]) (by norm_num) 49408 rf hc
  exact ⟨rf, r1, hc, h1, h2⟩

/-- Elements of the folded insertion are the seed's elements plus the
list's. -/
theorem mem_foldl_insert (l : List Nat) :
    ∀ (ids : Finset Nat) (i : Nat),
    i ∈ l.foldl (fun s x => insert x s) ids ↔ i ∈ ids ∨ i ∈ l := by
  induction l with
  | nil => intro ids i; simp
  | cons x t ih =>
      intro ids i
      simp only [List.foldl_cons, ih, Finset.mem_insert, List.mem_cons]
      tauto

/-- Membership in `insert_id_range`: the seed plus the inclusive
interval. -/
theorem mem_insert_id_range (ids : Finset Nat) (s e i : Nat) :
    i ∈ insert_id_range ids s e ↔ i ∈ ids ∨ (s ≤ i ∧ i ≤ e) := by
  unfold insert_id_range
  rw [mem_foldl_insert]
  constructor
  · rintro (h | h)
    · exact Or.inl h
    · right
      have := List.mem_range'_1.mp h
      omega
  · rintro (h | h)
    · exact Or.inl h
    · right
      apply List.mem_range'_1.mpr
      omega

/-- The compat range loop downgrades an end-of-input to a hard error
only for the very first restriction: any `Read UnexpectedEof` it
returns implies index zero. -/
theorem compat_loop_eof_error_idx (idx : Nat) :
    ∀ (k : Nat) (r : Base64BitReader) (ids : Finset Nat) (r' : Base64BitReader),
    TcfEuV2.compat_loop idx r k ids = (.error (.read .unexpectedEof), r') → idx = 0 := by
  intro k
  induction k with
  | zero =>
      intro r ids r' h
      unfold TcfEuV2.compat_loop at h
      simp at h
  | succ k1 ih =>
      intro r ids r' h
      unfold TcfEuV2.compat_loop at h
      rcases hb : Base64BitReader.read_bit r with ⟨res, r1⟩
      rw [hb] at h
      cases res with
      | error e =>
          cases e <;> simp_all
      | ok g =>
        simp only at h
        rcases hs : Base64BitReader.read_unsigned r1 16 16 with ⟨res2, r2⟩
        rw [hs] at h
        cases res2 with
        | error e =>
            cases e with
            | unexpectedEof =>
                simp only at h
                split at h
                · simp at h
                · omega
            | invalidData o b => simp at h
            | invalidInput => simp at h
        | ok s =>
          simp only at h
          split at h
          · rcases he : Base64BitReader.read_unsigned r2 16 16 with ⟨res3, r3⟩
            rw [he] at h
            cases res3 with
            | error e =>
                cases e with
                | unexpectedEof =>
                    simp only at h
                    split at h
                    · simp at h
                    · omega
                | invalidData o b => simp at h
                | invalidInput => simp at h
            | ok e2 =>
                simp only at h
                exact ih _ _ _ h
          · exact ih _ _ _ h

/-- Every error the compat range loop returns is a `Read` error. -/
theorem compat_loop_error_is_read (idx : Nat) :
    ∀ (k : Nat) (r : Base64BitReader) (ids : Finset Nat)
      (err : SectionDecodeError) (r' : Base64BitReader),
    TcfEuV2.compat_loop idx r k ids = (.error err, r') → ∃ src, err = .read src := by
  intro k
  induction k with
  | zero =>
      intro r ids err r' h
      unfold TcfEuV2.compat_loop at h
      simp at h
  | succ k1 ih =>
      intro r ids err r' h
      unfold TcfEuV2.compat_loop at h
      rcases hb : Base64BitReader.read_bit r with ⟨res, rb⟩
      rw [hb] at h
      cases res with
      | error e =>
          cases e <;> simp_all
          · exact ⟨_, h.1.symm⟩
          · exact ⟨_, h.1.symm⟩
      | ok g =>
        simp only at h
        rcases hs : Base64BitReader.read_unsigned rb 16 16 with ⟨res2, r2⟩
        rw [hs] at h
        cases res2 with
        | error e =>
            cases e with
            | unexpectedEof =>
                simp only at h
                split at h
                · simp at h
                · simp at h
                  exact ⟨_, h.1.symm⟩
            | invalidData o b =>
                simp at h
                exact ⟨_, h.1.symm⟩
            | invalidInput =>
                simp at h
                exact ⟨_, h.1.symm⟩
        | ok s =>
          simp only at h
          split at h
          · rcases he : Base64BitReader.read_unsigned r2 16 16 with ⟨res3, r3⟩
            rw [he] at h
            cases res3 with
            | error e =>
                cases e with
                | unexpectedEof =>
                    simp only at h
                    split at h
                    · simp at h
                    · simp at h
                      exact ⟨_, h.1.symm⟩
                | invalidData o b =>
                    simp at h
                    exact ⟨_, h.1.symm⟩
                | invalidInput =>
                    simp at h
                    exact ⟨_, h.1.symm⟩
            | ok e2 => exact ih _ _ _ _ h
          · exact ih _ _ _ _ h

/-- Every error the compat range read returns is a `Read` error. -/
theorem compat_error_is_read (r : Base64BitReader) (idx : Nat)
    (err : SectionDecodeError) (r' : Base64BitReader)
    (h : TcfEuV2.read_publisher_restriction_integer_range_compat r idx =
      (.error err, r')) : ∃ src, err = .read src := by
  unfold TcfEuV2.read_publisher_restriction_integer_range_compat at h
  rcases hn : Base64BitReader.read_unsigned r 16 12 with ⟨res, r1⟩
  rw [hn] at h
  cases res with
  | error e =>
      cases e <;> simp_all
      · exact ⟨_, h.1.symm⟩
      · exact ⟨_, h.1.symm⟩
  | ok n =>
      simp only at h
      exact compat_loop_error_is_read idx n r1 ∅ err r' h

/-- The compat range read reports a hard end-of-input only for the
very first restriction. -/
theorem compat_eof_error_idx (r : Base64BitReader) (idx : Nat)
    (r' : Base64BitReader)
    (h : TcfEuV2.read_publisher_restriction_integer_range_compat r idx =
      (.error (.read .unexpectedEof), r')) : idx = 0 := by
  unfold TcfEuV2.read_publisher_restriction_integer_range_compat at h
  rcases hn : Base64BitReader.read_unsigned r 16 12 with ⟨res, r1⟩
  rw [hn] at h
  cases res with
  | error e => cases e <;> simp_all
  | ok n =>
      simp only at h
      exact compat_loop_eof_error_idx idx n r1 ∅ r' h

/-- Every error of the restriction entry loop is a `Read` error. -/
theorem restrictions_loop_error_is_read (k : Nat) :
    ∀ (r : Base64BitReader) (acc : List TcfEuV2.PublisherRestriction)
      (err : SectionDecodeError) (r' : Base64BitReader),
    TcfEuV2.restrictions_loop r k acc = (.error err, r') → ∃ src, err = .read src := by
  induction k with
  | zero =>
      intro r acc err r' h
      unfold TcfEuV2.restrictions_loop at h
      simp at h
  | succ k1 ih =>
      intro r acc err r' h
      unfold TcfEuV2.restrictions_loop at h
      rcases hp : Base64BitReader.read_unsigned r 8 6 with ⟨res, r1⟩
      rw [hp] at h
      cases res with
      | error e =>
          cases e <;> simp_all
          · exact ⟨_, h.1.symm⟩
          · exact ⟨_, h.1.symm⟩
      | ok p =>
        simp only at h
        rcases ht : Base64BitReader.read_unsigned r1 8 2 with ⟨res2, r2⟩
        rw [ht] at h
        cases res2 with
        | error e =>
            cases e <;> simp_all
            · exact ⟨_, h.1.symm⟩
            · exact ⟨_, h.1.symm⟩
        | ok t =>
          simp only at h
          rcases hc : TcfEuV2.read_publisher_restriction_integer_range_compat r2 acc.length
            with ⟨res3, r3⟩
          rw [hc] at h
          cases res3 with
          | error e =>
              simp only at h
              cases h
              exact compat_error_is_read r2 acc.length _ _ hc
          | ok o =>
            cases o with
            | none => simp at h
            | some ids => exact ih _ _ _ _ h

/-- The restriction entry loop either succeeds, returning the
accumulated entries extended by the newly decoded ones, or fails; a
failure with a nonempty accumulator (an entry already decoded) is
never end-of-input sourced. -/
theorem restrictions_loop_acc_front (k : Nat) :
    ∀ (r : Base64BitReader) (acc : List TcfEuV2.PublisherRestriction),
    (∃ l r', TcfEuV2.restrictions_loop r k acc = (.ok (acc ++ l), r')) ∨
    (∃ e r', TcfEuV2.restrictions_loop r k acc = (.error e, r') ∧
      (acc ≠ [] → e ≠ .read .unexpectedEof)) := by
  induction k with
  | zero =>
      intro r acc
      left
      exact ⟨[], r, by unfold TcfEuV2.restrictions_loop; simp⟩
  | succ k1 ih =>
      intro r acc
      unfold TcfEuV2.restrictions_loop
      rcases hp : Base64BitReader.read_unsigned r 8 6 with ⟨res, r1⟩
      cases res with
      | error e =>
          cases e with
          | unexpectedEof => exact Or.inl ⟨[], r1, by simp⟩
          | invalidData o b =>
              exact Or.inr ⟨.read (.invalidData o b), r1, by simp, by intro _ hne; cases hne⟩
          | invalidInput =>
              exact Or.inr ⟨.read .invalidInput, r1, by simp, by intro _ hne; cases hne⟩
      | ok p =>
        simp only
        rcases ht : Base64BitReader.read_unsigned r1 8 2 with ⟨res2, r2⟩
        cases res2 with
        | error e =>
            cases e with
            | unexpectedEof => exact Or.inl ⟨[], r2, by simp⟩
            | invalidData o b =>
                exact Or.inr ⟨.read (.invalidData o b), r2, by simp, by intro _ hne; cases hne⟩
            | invalidInput =>
                exact Or.inr ⟨.read .invalidInput, r2, by simp, by intro _ hne; cases hne⟩
        | ok t =>
          simp only
          rcases hc : TcfEuV2.read_publisher_restriction_integer_range_compat r2 acc.length
            with ⟨res3, r3⟩
          cases res3 with
          | error e =>
              right
              refine ⟨e, r3, by simp, ?_⟩
              intro hacc heq
              subst heq
              have := compat_eof_error_idx r2 acc.length r3 hc
              simp at this
              exact hacc this
          | ok o =>
            cases o with
            | none => exact Or.inl ⟨[], r3, by simp⟩
            | some ids =>
                simp only
                rcases ih r3 (acc ++ [⟨p, TcfEuV2.restriction_type_of t, ids⟩]) with
                  ⟨l, r4, hok⟩ | ⟨e, r4, herr, hcond⟩
                · left
                  exact ⟨⟨p, TcfEuV2.restriction_type_of t, ids⟩ :: l, r4, by
                    rw [hok]
                    simp⟩
                · right
                  exact ⟨e, r4, herr, fun _ => hcond (by simp)⟩

/-- Claim C2 (amended): in the TCF EU v2 publisher-restriction decoding,
past the first restriction entry a premature end-of-input anywhere
stops early and returns every entry decoded so far instead of failing
(conjunct 1); end-of-input on the first restriction is a hard `Read`
error exactly when it hits one of the 16-bit bounds of its vendor-range
payload (conjuncts 2 and 3), and such a compat failure aborts the
section decode (conjunct 4); end-of-input on the first restriction's
first field, the 6-bit purpose id, instead stops early and yields the
empty restriction list (conjunct 5). -/
theorem eu_publisher_restrictions_eof_policy :
    (∀ (k : Nat) (r : Base64BitReader) (acc : List TcfEuV2.PublisherRestriction),
      (∃ l r', TcfEuV2.restrictions_loop r k acc = (.ok (acc ++ l), r')) ∨
      (∃ e r', TcfEuV2.restrictions_loop r k acc = (.error e, r') ∧
        (acc ≠ [] → e ≠ .read .unexpectedEof))) ∧
    (∀ (r : Base64BitReader) (k : Nat) (ids : Finset Nat) (g : Bool)
       (r1 r2 : Base64BitReader),
      Base64BitReader.read_bit r = (.ok g, r1) →
      Base64BitReader.read_unsigned r1 16 16 = (.error .unexpectedEof, r2) →
      TcfEuV2.compat_loop 0 r (k + 1) ids = (.error (.read .unexpectedEof), r2)) ∧
    (∀ (r : Base64BitReader) (k : Nat) (ids : Finset Nat) (s : Nat)
       (r1 r2 r3 : Base64BitReader),
      Base64BitReader.read_bit r = (.ok true, r1) →
      Base64BitReader.read_unsigned r1 16 16 = (.ok s, r2) →
      Base64BitReader.read_unsigned r2 16 16 = (.error .unexpectedEof, r3) →
      TcfEuV2.compat_loop 0 r (k + 1) ids = (.error (.read .unexpectedEof), r3)) ∧
    (∀ (r : Base64BitReader) (k p t : Nat) (r1 r2 r3 : Base64BitReader)
       (e : SectionDecodeError),
      Base64BitReader.read_unsigned r 8 6 = (.ok p, r1) →
      Base64BitReader.read_unsigned r1 8 2 = (.ok t, r2) →
      TcfEuV2.read_publisher_restriction_integer_range_compat r2 0 = (.error e, r3) →
      TcfEuV2.restrictions_loop r (k + 1) [] = (.error e, r3)) ∧
    (∀ (r : Base64BitReader) (k : Nat) (r1 : Base64BitReader),
      Base64BitReader.read_unsigned r 8 6 = (.error .unexpectedEof, r1) →
      TcfEuV2.restrictions_loop r (k + 1) [] = (.ok [], r1)) := by
  refine ⟨restrictions_loop_acc_front, ?_, ?_, ?_, ?_⟩
  · intro r k ids g r1 r2 hb hs
    unfold TcfEuV2.compat_loop
    rw [hb]
    simp only
    rw [hs]
    simp
  · intro r k ids s r1 r2 r3 hb hs he
    unfold TcfEuV2.compat_loop
    rw [hb]
    simp only
    rw [hs]
    simp only [if_pos rfl]
    rw [he]
    simp
  · intro r k p t r1 r2 r3 e hp ht hc
    unfold TcfEuV2.restrictions_loop
    rw [hp]
    simp only
    rw [ht]
    simp only
    rw [show ([] : List TcfEuV2.PublisherRestriction).length = 0 from rfl, hc]
  · intro r k r1 hp
    unfold TcfEuV2.restrictions_loop
    rw [hp]

/-- Counterexample to claim C2 as stated: a stream holding exactly the
12-bit restriction count 1 and nothing more.  The count reads as 1,
the very first restriction entry's first field (the 6-bit purpose id)
hits end-of-input, and `parse_publisher_restrictions` returns
`Ok` with the empty list — not a hard decode error. -/
theorem eu_first_restriction_eof_not_fatal :
    (Base64BitReader.read_unsigned (Base64BitReader.new [65, 66]) 16 12).1 = .ok 1 ∧
    (Base64BitReader.read_unsigned
      ((Base64BitReader.read_unsigned (Base64BitReader.new [65, 66]) 16 12).2) 8 6).1 =
      .error .unexpectedEof ∧
    (TcfEuV2.parse_publisher_restrictions (Base64BitReader.new [65, 66])).1 = .ok [] := by
  refine ⟨?_, ?_, ?_⟩ <;>
    simp [TcfEuV2.parse_publisher_restrictions, TcfEuV2.restrictions_loop,
      TcfEuV2.read_publisher_restriction_integer_range_compat, TcfEuV2.compat_loop,
      Base64BitReader.read_unsigned, Base64BitReader.read_unsigned_loop,
      Base64BitReader.read_decoded_byte, Base64SliceReader.read,
      Base64SliceReader.fill, Base64SliceReader.new, Base64BitReader.new,
      Base64BitReader.trim_queue, base64_value, base64_decode_table]

/-- Witness for the amended C2 at the counterexample stream: the
first-field end-of-input branch returns the empty list. -/
theorem eu_publisher_restrictions_eof_policy_witness :
    ∃ r1, Base64BitReader.read_unsigned
        ((Base64BitReader.read_unsigned (Base64BitReader.new [65, 66]) 16 12).2) 8 6 =
        (.error .unexpectedEof, r1) ∧
      TcfEuV2.restrictions_loop
        ((Base64BitReader.read_unsigned (Base64BitReader.new [65, 66]) 16 12).2) 1 [] =
        (.ok [], r1) := by
  obtain ⟨r1, h⟩ : ∃ r1, Base64BitReader.read_unsigned
      ((Base64BitReader.read_unsigned (Base64BitReader.new [65, 66]) 16 12).2) 8 6 =
      (.error .unexpectedEof, r1) := ⟨_, by
    simp [Base64BitReader.read_unsigned, Base64BitReader.read_unsigned_loop,
      Base64BitReader.read_decoded_byte, Base64SliceReader.read,
      Base64SliceReader.fill, Base64SliceReader.new, Base64BitReader.new,
      Base64BitReader.trim_queue, base64_value, base64_decode_table]
    rfl⟩
  exact ⟨r1, h, eu_publisher_restrictions_eof_policy.2.2.2.2 _ 0 r1 h⟩

/-- Claim C6: compact range decoding with count 1, a group entry with
start 5 and end 8 yields exactly the set of 5, 6, 7 and 8; with count
1 and a non-group entry with id 42 it yields exactly the singleton 42;
in general a group entry inserts every integer of the inclusive
interval between its 16-bit bounds and a non-group entry inserts its
single 16-bit id. -/
theorem compact_range_decoding :
    (TcfEuV2.read_publisher_restriction_integer_range_compat
      (Base64BitReader.new [65, 66, 103, 65, 75, 65, 66, 65]) 0).1 =
      .ok (some ({5, 6, 7, 8} : Finset Nat)) ∧
    (TcfEuV2.read_publisher_restriction_integer_range_compat
      (Base64BitReader.new [65, 66, 65, 66, 85]) 0).1 =
      .ok (some ({42} : Finset Nat)) ∧
    (∀ (idx : Nat) (r : Base64BitReader) (k : Nat) (ids : Finset Nat)
       (r1 r2 r3 : Base64BitReader) (s e : Nat),
      Base64BitReader.read_bit r = (.ok true, r1) →
      Base64BitReader.read_unsigned r1 16 16 = (.ok s, r2) →
      Base64BitReader.read_unsigned r2 16 16 = (.ok e, r3) →
      TcfEuV2.compat_loop idx r (k + 1) ids =
        TcfEuV2.compat_loop idx r3 k (insert_id_range ids s e) ∧
      (∀ i, i ∈ insert_id_range ids s e ↔ i ∈ ids ∨ (s ≤ i ∧ i ≤ e))) ∧
    (∀ (idx : Nat) (r : Base64BitReader) (k : Nat) (ids : Finset Nat)
       (r1 r2 : Base64BitReader) (s : Nat),
      Base64BitReader.read_bit r = (.ok false, r1) →
      Base64BitReader.read_unsigned r1 16 16 = (.ok s, r2) →
      TcfEuV2.compat_loop idx r (k + 1) ids =
        TcfEuV2.compat_loop idx r2 k (insert s ids) ∧
      (∀ i, i ∈ insert s ids ↔ i ∈ ids ∨ i = s)) := by
  refine ⟨?_, ?_, ?_, ?_⟩
  · simp [TcfEuV2.read_publisher_restriction_integer_range_compat, TcfEuV2.compat_loop,
      insert_id_range, List.range',
      Base64BitReader.read_bit, Base64BitReader.read_unsigned,
      Base64BitReader.read_unsigned_loop,
      Base64BitReader.read_decoded_byte, Base64SliceReader.read,
      Base64SliceReader.fill, Base64SliceReader.new, Base64BitReader.new,
      Base64BitReader.trim_queue, base64_value, base64_decode_table]
    decide
  · simp [TcfEuV2.read_publisher_restriction_integer_range_compat, TcfEuV2.compat_loop,
      insert_id_range, List.range',
      Base64BitReader.read_bit, Base64BitReader.read_unsigned,
      Base64BitReader.read_unsigned_loop,
      Base64BitReader.read_decoded_byte, Base64SliceReader.read,
      Base64SliceReader.fill, Base64SliceReader.new, Base64BitReader.new,
      Base64BitReader.trim_queue, base64_value, base64_decode_table]
  · intro idx r k ids r1 r2 r3 s e hb hs he
    constructor
    · conv_lhs => unfold TcfEuV2.compat_loop
      rw [hb]
      simp only
      rw [hs]
      simp only [if_pos rfl]
      rw [he]
      simp
    · exact mem_insert_id_range ids s e
  · intro idx r k ids r1 r2 s hb hs
    constructor
    · conv_lhs => unfold TcfEuV2.compat_loop
      rw [hb]
      simp only
      rw [hs]
      simp
    · intro i
      simp [Finset.mem_insert]
      tauto


/-- Witness for C6's general conjunct on the concrete group stream:
after the 12-bit count, the flag, start 5 and end 8 are read and the
loop step inserts exactly the interval. -/
theorem compact_range_decoding_witness :
    Base64BitReader.read_bit ⟨⟨[65, 66, 103, 65, 75, 65, 66, 65], 3, 0, 2⟩, 8, 4⟩ =
      (.ok true, ⟨⟨[65, 66, 103, 65, 75, 65, 66, 65], 3, 0, 2⟩, 0, 3⟩) ∧
    TcfEuV2.compat_loop 0 ⟨⟨[65, 66, 103, 65, 75, 65, 66, 65], 3, 0, 2⟩, 8, 4⟩ 1 ∅ =
      TcfEuV2.compat_loop 0 ⟨⟨[65, 66, 103, 65, 75, 65, 66, 65], 8, 0, 0⟩, 0, 3⟩ 0
        (insert_id_range ∅ 5 8) ∧
    (∀ i, i ∈ insert_id_range (∅ : Finset Nat) 5 8 ↔ i ∈ (∅ : Finset Nat) ∨ (5 ≤ i ∧ i ≤ 8)) := by
  have h1 : Base64BitReader.read_bit ⟨⟨[65, 66, 103, 65, 75, 65, 66, 65], 3, 0, 2⟩, 8, 4⟩ =
      (.ok true, ⟨⟨[65, 66, 103, 65, 75, 65, 66, 65], 3, 0, 2⟩, 0, 3⟩) := by
    simp [Base64BitReader.read_bit, Base64BitReader.trim_queue]
  have h2 : Base64BitReader.read_unsigned
      (⟨⟨[65, 66, 103, 65, 75, 65, 66, 65], 3, 0, 2⟩, 0, 3⟩ : Base64BitReader) 16 16 =
      (.ok 5, ⟨⟨[65, 66, 103, 65, 75, 65, 66, 65], 6, 0, 4⟩, 0, 3⟩) := by
    simp [Base64BitReader.read_unsigned, Base64BitReader.read_unsigned_loop,
      Base64BitReader.read_decoded_byte, Base64SliceReader.read,
      Base64SliceReader.fill, Base64BitReader.trim_queue, base64_value,
      base64_decode_table]
  have h3 : Base64BitReader.read_unsigned
      (⟨⟨[65, 66, 103, 65, 75, 65, 66, 65], 6, 0, 4⟩, 0, 3⟩ : Base64BitReader) 16 16 =
      (.ok 8, ⟨⟨[65, 66, 103, 65, 75, 65, 66, 65], 8, 0, 0⟩, 0, 3⟩) := by
    simp [Base64BitReader.read_unsigned, Base64BitReader.read_unsigned_loop,
      Base64BitReader.read_decoded_byte, Base64SliceReader.read,
      Base64SliceReader.fill, Base64BitReader.trim_queue, base64_value,
      base64_decode_table]
  have h := compact_range_decoding.2.2.1 0 _ 0 ∅ _ _ _ 5 8 h1 h2 h3
  exact ⟨h1, h.1, h.2⟩

/-- The TCF CA publisher restriction parse never fails: any error of
the keyed range list read is replaced by the empty default. -/
theorem ca_parse_pub_ok (r : Base64BitReader) :
    ∃ l r', TcfCaV1.parse_publisher_restrictions r = (.ok l, r') := by
  unfold TcfCaV1.parse_publisher_restrictions
  rcases h : read_n_array_of_ranges r 6 2 with ⟨res, r1⟩
  cases res with
  | error e => exact ⟨[], r1, rfl⟩
  | ok l => exact ⟨_, r1, rfl⟩

/-- The TCF CA core data parse never produces an
`UnknownSegmentVersion` error. -/
theorem ca_core_data_no_unknown (r : Base64BitReader) (v : Nat) :
    (TcfCaV1.core_data r).1 ≠ .error (.unknownSegmentVersion v) := by
  unfold TcfCaV1.core_data
  rcases hp : TcfCaV1.core_prefix r with ⟨res, r1⟩
  cases res with
  | error e => simp
  | ok pre =>
      simp only
      obtain ⟨l, r2, hl⟩ := ca_parse_pub_ok r1
      rw [hl]
      simp

/-- Every error of the TCF EU v2 publisher restriction parse is a
`Read` error. -/
theorem eu_parse_error_is_read (r : Base64BitReader)
    (err : SectionDecodeError) (r' : Base64BitReader)
    (h : TcfEuV2.parse_publisher_restrictions r = (.error err, r')) :
    ∃ src, err = .read src := by
  unfold TcfEuV2.parse_publisher_restrictions at h
  rcases hn : Base64BitReader.read_unsigned r 16 12 with ⟨res, r1⟩
  rw [hn] at h
  cases res with
  | error e =>
      cases h
      exact ⟨e, rfl⟩
  | ok n =>
      simp only at h
      exact restrictions_loop_error_is_read n r1 [] err r' h

/-- The TCF EU v2 core data parse never produces an
`UnknownSegmentVersion` error. -/
theorem eu_core_data_no_unknown (r : Base64BitReader) (v : Nat) :
    (TcfEuV2.core_data r).1 ≠ .error (.unknownSegmentVersion v) := by
  unfold TcfEuV2.core_data
  rcases hp : TcfEuV2.core_prefix r with ⟨res, r1⟩
  cases res with
  | error e => simp
  | ok pre =>
      simp only
      rcases hq : TcfEuV2.parse_publisher_restrictions r1 with ⟨res2, r2⟩
      cases res2 with
      | error e =>
          simp only
          intro hc
          injection hc with hc
          obtain ⟨src, hsrc⟩ := eu_parse_error_is_read r1 e r2 hq
          rw [hsrc] at hc
          cases hc
      | ok pubs => simp

/-- Claim C3: both core decoders read the 6-bit segment version first
and return a fatal `UnknownSegmentVersion` carrying the observed value
exactly when the version is outside the accepted set — 1 or 2 for
TCF CA v1, exactly 2 for TCF EU v2; a failing version read aborts the
decode as a `Read` error before any other field is touched. -/
theorem core_segment_version_gate (r : Base64BitReader) (v : Nat) :
    ((TcfCaV1.core_from_reader r).1 = .error (.unknownSegmentVersion v) ↔
      (∃ r1, Base64BitReader.read_unsigned r 8 6 = (.ok v, r1) ∧ v ≠ 1 ∧ v ≠ 2)) ∧
    ((TcfEuV2.core_from_reader r).1 = .error (.unknownSegmentVersion v) ↔
      (∃ r1, Base64BitReader.read_unsigned r 8 6 = (.ok v, r1) ∧ v ≠ 2)) ∧
    (∀ e r1, Base64BitReader.read_unsigned r 8 6 = (.error e, r1) →
      TcfCaV1.core_from_reader r = (.error (.read e), r1) ∧
      TcfEuV2.core_from_reader r = (.error (.read e), r1)) := by
  refine ⟨?_, ?_, ?_⟩
  · unfold TcfCaV1.core_from_reader
    rcases hr : Base64BitReader.read_unsigned r 8 6 with ⟨res, r1⟩
    cases res with
    | error e =>
        simp only
        constructor
        · intro h
          simp at h
        · rintro ⟨r2, h, _⟩
          cases h
    | ok w =>
      simp only
      by_cases hw : w ≠ 1 ∧ w ≠ 2
      · rw [if_pos hw]
        simp only
        constructor
        · intro h
          injection h with h
          injection h with h
          exact ⟨r1, by rw [h], by omega, by omega⟩
        · rintro ⟨r2, h, h1, h2⟩
          injection h with h h'
          injection h with h
          rw [h]
      · rw [if_neg hw]
        constructor
        · intro h
          rcases hd : TcfCaV1.core_data r1 with ⟨res2, r2⟩
          rw [hd] at h
          cases res2 with
          | error e =>
              simp only at h
              injection h with h
              have := ca_core_data_no_unknown r1 v
              rw [hd] at this
              simp at this
              exact absurd (by rw [h]) this
          | ok d => simp at h
        · rintro ⟨r2, h, h1, h2⟩
          injection h with h h'
          injection h with h
          exact absurd ⟨by omega, by omega⟩ hw
  · unfold TcfEuV2.core_from_reader
    rcases hr : Base64BitReader.read_unsigned r 8 6 with ⟨res, r1⟩
    cases res with
    | error e =>
        simp only
        constructor
        · intro h
          simp at h
        · rintro ⟨r2, h, _⟩
          cases h
    | ok w =>
      simp only
      by_cases hw : w ≠ 2
      · rw [if_pos hw]
        simp only
        constructor
        · intro h
          injection h with h
          injection h with h
          exact ⟨r1, by rw [h], by omega⟩
        · rintro ⟨r2, h, h1⟩
          injection h with h h'
          injection h with h
          rw [h]
      · rw [if_neg hw]
        constructor
        · intro h
          rcases hd : TcfEuV2.core_data r1 with ⟨res2, r2⟩
          rw [hd] at h
          cases res2 with
          | error e =>
              simp only at h
              injection h with h
              have := eu_core_data_no_unknown r1 v
              rw [hd] at this
              simp at this
              exact absurd (by rw [h]) this
          | ok d => simp at h
        · rintro ⟨r2, h, h1⟩
          injection h with h h'
          injection h with h
          exact absurd (by omega) hw
  · intro e r1 h
    constructor
    · unfold TcfCaV1.core_from_reader
      rw [h]
    · unfold TcfEuV2.core_from_reader
      rw [h]

theorem core_segment_version_gate_witness :
    (TcfCaV1.core_from_reader (Base64BitReader.new [81])).1 =
      .error (.unknownSegmentVersion 16) ∧
    (TcfEuV2.core_from_reader (Base64BitReader.new [81])).1 =
      .error (.unknownSegmentVersion 16) := by
  have h := core_segment_version_gate (Base64BitReader.new [81]) 16
  have hr : Base64BitReader.read_unsigned (Base64BitReader.new [81]) 8 6 =
      (.ok 16, ⟨⟨[81], 1, 0, 0⟩, 0, 2⟩) := by
    simp [Base64BitReader.read_unsigned, Base64BitReader.read_unsigned_loop,
      Base64BitReader.read_decoded_byte, Base64SliceReader.read,
      Base64SliceReader.fill, Base64SliceReader.new, Base64BitReader.new,
      base64_value, base64_decode_table, Base64BitReader.trim_queue]
  exact ⟨h.1.mpr ⟨_, hr, by decide, by decide⟩, h.2.1.mpr ⟨_, hr, by decide⟩⟩

/-- Claim C10 (spec-modelled inner reader): TCF CA v1
publisher-restriction parsing never returns an error — every input
yields `Ok`; any error of any kind reported by the keyed range list
read (EOF on its leading count as well as non-EOF failures such as an
invalid alphabet byte) is replaced by `Ok` with the empty restriction
list, discarding whatever the failed read had accumulated; and in
particular EOF on the very first restriction entry's first field (its
6-bit key) yields `Ok` with the empty list; a core decode whose prefix
fields parse therefore always succeeds. -/
theorem ca_publisher_restrictions_never_fail :
    (∀ r : Base64BitReader, ∃ l r',
      TcfCaV1.parse_publisher_restrictions r = (.ok l, r')) ∧
    (∀ (r : Base64BitReader) (e : IoErr) (r1 : Base64BitReader),
      read_n_array_of_ranges r 6 2 = (.error e, r1) →
      TcfCaV1.parse_publisher_restrictions r = (.ok [], r1)) ∧
    (∀ (r : Base64BitReader) (c : Nat) (r1 r2 : Base64BitReader),
      Base64BitReader.read_unsigned r 16 12 = (.ok (c + 1), r1) →
      Base64BitReader.read_unsigned r1 8 6 = (.error .unexpectedEof, r2) →
      TcfCaV1.parse_publisher_restrictions r = (.ok [], r2)) ∧
    (∀ (r : Base64BitReader) (pre : TcfCaV1.CorePrefix) (r1 : Base64BitReader),
      TcfCaV1.core_prefix r = (.ok pre, r1) →
      ∃ d r2, TcfCaV1.core_data r = (.ok d, r2)) := by
  refine ⟨ca_parse_pub_ok, ?_, ?_, ?_⟩
  · intro r e r1 h
    unfold TcfCaV1.parse_publisher_restrictions
    rw [h]
  · intro r c r1 r2 hc hk
    unfold TcfCaV1.parse_publisher_restrictions read_n_array_of_ranges
    rw [hc]
    unfold read_n_array_of_ranges_loop
    rw [hk]
    rfl
  · intro r pre r1 hp
    unfold TcfCaV1.core_data
    rw [hp]
    obtain ⟨l, r2, hl⟩ := ca_parse_pub_ok r1
    dsimp only
    rw [hl]
    exact ⟨_, r2, rfl⟩

theorem ca_publisher_restrictions_never_fail_witness :
    TcfCaV1.parse_publisher_restrictions (Base64BitReader.new []) =
      (.ok [], Base64BitReader.new []) := by
  have h : read_n_array_of_ranges (Base64BitReader.new []) 6 2 =
      (.error .unexpectedEof, Base64BitReader.new []) := by
    simp [read_n_array_of_ranges, Base64BitReader.read_unsigned,
      Base64BitReader.read_unsigned_loop, Base64BitReader.read_decoded_byte,
      Base64SliceReader.read, Base64SliceReader.fill, Base64SliceReader.new,
      Base64BitReader.new]
  exact ca_publisher_restrictions_never_fail.2.1 (Base64BitReader.new [])
    .unexpectedEof (Base64BitReader.new []) h

/-- The fixed-bitfield position loop is the iterated `read_bit`
followed by the pure set construction `bitfield_set`. -/
theorem read_fixed_bitfield_loop_eq_bits (len : Nat) :
    ∀ (r : Base64BitReader) (ids : Finset Nat) (i n : Nat),
      i + len = n + 1 →
      read_fixed_bitfield_loop r ids i n =
        (match Base64BitReader.read_bits r len with
         | (.ok bl, r') => (.ok (bitfield_set bl i ids), r')
         | (.error e, r') => (.error e, r')) := by
  induction len with
  | zero =>
      intro r ids i n hlen
      unfold read_fixed_bitfield_loop
      rw [dif_neg (by omega)]
      rfl
  | succ len ih =>
      intro r ids i n hlen
      conv_lhs => unfold read_fixed_bitfield_loop
      rw [dif_pos (by omega)]
      simp only [Base64BitReader.read_bits]
      rcases hb : Base64BitReader.read_bit r with ⟨res, r1⟩
      cases res with
      | error e => rfl
      | ok b =>
          simp only
          rw [ih r1 (if b then insert i ids else ids) (i + 1) n (by omega)]
          rcases hbl : Base64BitReader.read_bits r1 len with ⟨res2, r2⟩
          cases res2 with
          | error e => rfl
          | ok l => rfl

/-- Membership in the pure bitfield set: id `j` with `j = i + k` is a
member exactly when bit `k` of the list is set (or it was already in
the accumulator). -/
theorem mem_bitfield_set (bl : List Bool) :
    ∀ (i : Nat) (ids : Finset Nat) (j : Nat),
      j ∈ bitfield_set bl i ids ↔
        j ∈ ids ∨ ∃ k, k < bl.length ∧ bl.getD k false = true ∧ j = i + k := by
  induction bl with
  | nil =>
      intro i ids j
      simp [bitfield_set]
  | cons b rest ih =>
      intro i ids j
      rw [bitfield_set, ih (i + 1) _ j]
      have hmem : j ∈ (if b then insert i ids else ids) ↔
          ((b = true ∧ j = i) ∨ j ∈ ids) := by
        cases b <;> simp
      rw [hmem]
      constructor
      · rintro ((⟨hb, hj⟩ | h) | ⟨k, hk, hget, hj⟩)
        · exact Or.inr ⟨0, by simp, by rw [List.getD_cons_zero]; exact hb, by omega⟩
        · exact Or.inl h
        · exact Or.inr ⟨k + 1, by simp only [List.length_cons]; omega,
            by rw [List.getD_cons_succ]; exact hget, by omega⟩
      · rintro (h | ⟨k, hk, hget, hj⟩)
        · exact Or.inl (Or.inr h)
        · rcases k with _ | k1
          · rw [List.getD_cons_zero] at hget
            exact Or.inl (Or.inl ⟨hget, by omega⟩)
          · exact Or.inr ⟨k1, by simp only [List.length_cons] at hk; omega,
              by rw [List.getD_cons_succ] at hget; exact hget, by omega⟩

/-- Claim C1: the TCF CA v1 vendor consent fields decode as a fixed
bitfield — after the leading 16-bit length N, the field reader is
exactly N iterated bit reads, and id i (1-based, MSB-first) is a
member precisely when bit i of those reads is set; and on a concrete
stream the result differs from the compact range decoding of the same
bits, so the field is not range-decoded. -/
theorem ca_vendor_fields_fixed_bitfield :
    (∀ (r r1 : Base64BitReader) (N : Nat),
        Base64BitReader.read_unsigned r 16 16 = (.ok N, r1) →
        TcfCaV1.read_vendor_field r =
          (match Base64BitReader.read_bits r1 N with
           | (.ok bl, r2) => (.ok (bitfield_set bl 1 ∅), r2)
           | (.error e, r2) => (.error e, r2))) ∧
    (∀ (bl : List Bool) (j : Nat),
        j ∈ bitfield_set bl 1 ∅ ↔
          1 ≤ j ∧ j ≤ bl.length ∧ bl.getD (j - 1) false = true) ∧
    ((TcfCaV1.read_vendor_field (Base64BitReader.new [65, 65, 79, 103])).1 =
        .ok {1, 3} ∧
      (read_integer_range (Base64BitReader.new [65, 65, 79, 103])).1 = .ok ∅ ∧
      ({1, 3} : Finset Nat) ≠ (∅ : Finset Nat)) := by
  refine ⟨?_, ?_, ?_, ?_, by decide⟩
  · intro r r1 N h
    unfold TcfCaV1.read_vendor_field iostep
    rw [h]
    unfold read_fixed_bitfield
    exact read_fixed_bitfield_loop_eq_bits N r1 ∅ 1 N (by omega)
  · intro bl j
    rw [mem_bitfield_set bl 1 ∅ j]
    simp only [Finset.not_mem_empty, false_or]
    constructor
    · rintro ⟨k, hk, hget, hj⟩
      refine ⟨by omega, by omega, ?_⟩
      have : j - 1 = k := by omega
      rw [this]
      exact hget
    · rintro ⟨h1, h2, hget⟩
      exact ⟨j - 1, by omega, hget, by omega⟩
  · simp [TcfCaV1.read_vendor_field, iostep, read_fixed_bitfield,
      read_fixed_bitfield_loop, Base64BitReader.read_unsigned,
      Base64BitReader.read_unsigned_loop, Base64BitReader.read_decoded_byte,
      Base64BitReader.read_bit, Base64BitReader.trim_queue,
      Base64SliceReader.read, Base64SliceReader.fill, Base64SliceReader.new,
      Base64BitReader.new, base64_value, base64_decode_table]
    decide
  · simp [read_integer_range, iostep, read_integer_range_loop,
      Base64BitReader.read_unsigned, Base64BitReader.read_unsigned_loop,
      Base64BitReader.read_decoded_byte, Base64BitReader.trim_queue,
      Base64SliceReader.read, Base64SliceReader.fill, Base64SliceReader.new,
      Base64BitReader.new, base64_value, base64_decode_table]

theorem ca_vendor_fields_fixed_bitfield_witness :
    TcfCaV1.read_vendor_field (Base64BitReader.new [65, 65, 79, 103]) =
      (.ok (bitfield_set [true, false, true] 1 ∅),
       ⟨⟨[65, 65, 79, 103], 4, 0, 0⟩, 0, 5⟩) := by
  have h1 : Base64BitReader.read_unsigned
      (Base64BitReader.new [65, 65, 79, 103]) 16 16 =
      (.ok 3, ⟨⟨[65, 65, 79, 103], 3, 2, 2⟩, 0, 0⟩) := by
    simp [Base64BitReader.read_unsigned, Base64BitReader.read_unsigned_loop,
      Base64BitReader.read_decoded_byte, Base64SliceReader.read,
      Base64SliceReader.fill, Base64SliceReader.new, Base64BitReader.new,
      Base64BitReader.trim_queue, base64_value, base64_decode_table]
  have h2 : Base64BitReader.read_bits
      (⟨⟨[65, 65, 79, 103], 3, 2, 2⟩, 0, 0⟩ : Base64BitReader) 3 =
      (.ok [true, false, true], ⟨⟨[65, 65, 79, 103], 4, 0, 0⟩, 0, 5⟩) := by
    simp [Base64BitReader.read_bits, Base64BitReader.read_bit,
      Base64BitReader.read_decoded_byte, Base64SliceReader.read,
      Base64SliceReader.fill, Base64BitReader.trim_queue,
      base64_value, base64_decode_table]
  have h := ca_vendor_fields_fixed_bitfield.1
    (Base64BitReader.new [65, 65, 79, 103]) _ 3 h1
  rw [h2] at h
  exact h
